import Mathlib

/-!
Verification of the dragonfly connection pipeline, pub/sub context and
string set against their natural-language specification.

The definitions below are a shallow embedding of the C++ sources:

* `facade::Connection` (dragonfly_connection.cc): the per-connection
  reader (`ParseRedis`, `ParseMemcache`, `IoLoop`, `CheckForHttpProto`),
  the dispatch fiber (`DispatchFiber`) and the async pub/sub enqueue
  entry point (`SendMsgVecAsync`).
* `dfly::ConnectionContext` (conn_context.cc): `ChangeSubscription`,
  `ChangePSub`, `OnClose`.
* `dfly::StringSet` (string_set.h): the tagged-slot hash set and its
  accounting, with the operation bodies (which are not part of the
  sources) modelled from the specification.

Machine integers are modelled as `Nat`; byte strings as `String` or
`List Char`; fibers and sockets are abstracted into explicit state and
event traces.
-/

namespace Dfly

/-! ## Connection frames and the dispatch queue

`Connection::Request` (dragonfly_connection.cc) is either a parsed
command (a vector of argument slices backed by an inline storage arena)
or, when `async_msg` is set, a pub/sub message carrying a blocking
counter.  We model the two variants as one inductive. -/

/-- One entry of the per-connection dispatch queue (`Connection::Request`).
`cmd` models a pipelined command request built by `Connection::FromArgs`;
`pub` models a request whose `async_msg` field is set (an `AsyncMsg`
holding a `PubMessage` and a `BlockingCounter`). -/
inductive Frame where
  | cmd (args : List String) : Frame
  | pub (channel message pattern : String) : Frame
  deriving DecidableEq, Repr

/-- Whether a request is a pub/sub message (its `async_msg` is non-null). -/
def Frame.isPub : Frame → Bool
  | .pub _ _ _ => true
  | .cmd _ => false

/-! ## The dispatch decision of the reader (claim C1)

`Connection::ParseRedis` decides, for each frame the parser produced,
between dispatching it inline and pushing it onto `dispatch_q_`;
`Connection::ParseMemcache` has its own version of the decision. -/

/-- Possible outcomes of the per-frame dispatch decision. -/
inductive DispatchOutcome where
  | inline       : DispatchOutcome  -- service_->DispatchCommand / DispatchMC called inline
  | queuedNotify : DispatchOutcome  -- pushed to dispatch_q_; evc_.notify() (queue became size 1)
  | queuedSilent : DispatchOutcome  -- pushed to dispatch_q_; no notify, no yield
  | queuedYield  : DispatchOutcome  -- pushed to dispatch_q_; queue exceeds 10, fiber yields
  | dropped      : DispatchOutcome  -- memcache non-inline case: the command is not dispatched
  deriving DecidableEq, Repr

/-- The else-branch of the decision in `Connection::ParseRedis`: the
request is pushed onto `dispatch_q_`; if the queue became size 1 the
dispatch fiber is notified, and if it exceeds 10 the reader yields. -/
def redisQueueOutcome (qLen : Nat) : DispatchOutcome :=
  if qLen + 1 == 1 then .queuedNotify
  else if 10 < qLen + 1 then .queuedYield
  else .queuedSilent

/-- Per-frame dispatch decision of `Connection::ParseRedis`
(dragonfly_connection.cc lines 398-418).  `qLen` is `dispatch_q_.size()`
before the decision, `consumed` the bytes the parser consumed and
`inputLen` `io_buf_.InputLen()` at the moment of the check. -/
def parseRedisStep (qLen : Nat) (asyncDispatch forceDispatch : Bool)
    (consumed inputLen : Nat) : DispatchOutcome :=
  -- bool is_sync_dispatch = !cc_->async_dispatch && !cc_->force_dispatch;
  -- if (dispatch_q_.empty() && is_sync_dispatch && consumed >= io_buf_.InputLen())
  if (qLen == 0) && (!asyncDispatch && !forceDispatch) && decide (inputLen ≤ consumed) then
    .inline
  else
    redisQueueOutcome qLen

/-- Per-frame dispatch decision of `Connection::ParseMemcache`
(dragonfly_connection.cc lines 460-468).  The code consults only the
queue and `async_dispatch`; `forceDispatch`, `consumed` and `inputLen`
are in scope (via `cc_` and `io_buf_`) but not consulted, and the
non-inline case performs no dispatch at all. -/
def parseMemcacheStep (qLen : Nat) (asyncDispatch forceDispatch : Bool)
    (consumed inputLen : Nat) : DispatchOutcome :=
  -- bool is_sync_dispatch = !cc_->async_dispatch;
  -- if (dispatch_q_.empty() && is_sync_dispatch) DispatchMC(...);
  if (qLen == 0) && !asyncDispatch then .inline else .dropped

/-- The inline-dispatch condition exactly as the specification words it:
queue empty, no async command executing, no active subscriptions, and
the parser consumed all buffered bytes.  Stated from the spec, to be
compared with the decision functions read off the code. -/
def specInlineCond (qLen : Nat) (asyncDispatch forceDispatch : Bool)
    (consumed inputLen : Nat) : Prop :=
  qLen = 0 ∧ asyncDispatch = false ∧ forceDispatch = false ∧ inputLen ≤ consumed

instance (qLen : Nat) (a f : Bool) (c l : Nat) :
    Decidable (specInlineCond qLen a f c l) := by
  unfold specInlineCond; infer_instance

theorem redisQueueOutcome_ne_inline (qLen : Nat) :
    redisQueueOutcome qLen ≠ .inline := by
  unfold redisQueueOutcome
  split
  · simp
  · split <;> simp

theorem redisQueueOutcome_eq (qLen : Nat) :
    redisQueueOutcome qLen =
      (if qLen = 0 then .queuedNotify
       else if 10 ≤ qLen then .queuedYield else .queuedSilent) := by
  unfold redisQueueOutcome
  by_cases h0 : qLen = 0
  · subst h0; rfl
  · have h1 : (qLen + 1 == 1) = false := by
      simp only [beq_eq_false_iff_ne, ne_eq]; omega
    rw [h1]
    by_cases h2 : 10 ≤ qLen
    · have h3 : 10 < qLen + 1 := by omega
      simp [h0, h2, h3]
    · have h3 : ¬ 10 < qLen + 1 := by omega
      simp [h0, h2, h3]

theorem parseRedisStep_inline_iff (qLen : Nat) (a f : Bool) (c l : Nat) :
    parseRedisStep qLen a f c l = .inline ↔ specInlineCond qLen a f c l := by
  unfold parseRedisStep
  split <;> rename_i h
  · simp only [Bool.and_eq_true, beq_iff_eq, Bool.not_eq_true',
      decide_eq_true_eq] at h
    exact iff_of_true rfl ⟨h.1.1, h.1.2.1, h.1.2.2, h.2⟩
  · refine iff_of_false (redisQueueOutcome_ne_inline qLen) fun hc => h ?_
    obtain ⟨h1, h2, h3, h4⟩ := hc
    subst h1 h2 h3
    simp [h4]

theorem parseRedisStep_queued (qLen : Nat) (a f : Bool) (c l : Nat)
    (h : ¬ specInlineCond qLen a f c l) :
    parseRedisStep qLen a f c l =
      (if qLen = 0 then .queuedNotify
       else if 10 ≤ qLen then .queuedYield else .queuedSilent) := by
  rw [← redisQueueOutcome_eq]
  unfold parseRedisStep
  split <;> rename_i hb
  · exact absurd ((parseRedisStep_inline_iff qLen a f c l).mp (by
      unfold parseRedisStep; simp [hb])) h
  · rfl

theorem parseMemcacheStep_inline_iff (qLen : Nat) (a f : Bool) (c l : Nat) :
    parseMemcacheStep qLen a f c l = .inline ↔ (qLen = 0 ∧ a = false) := by
  cases a <;> simp [parseMemcacheStep]

theorem parseMemcacheStep_dropped (qLen : Nat) (a f : Bool) (c l : Nat)
    (h : ¬ (qLen = 0 ∧ a = false)) :
    parseMemcacheStep qLen a f c l = .dropped := by
  cases a <;> simp_all [parseMemcacheStep]

/-- C1.  The claim states that on BOTH parsing paths a frame is
dispatched inline iff the queue is empty, `async_dispatch` and
`force_dispatch` are both false and the parser consumed all buffered
bytes, and that otherwise the frame is queued and the worker woken.
The memcache path refutes it: with an empty queue, no async command in
flight but `force_dispatch` set (and pipelined bytes still buffered),
`ParseMemcache` still dispatches inline, while the claimed condition is
violated. -/
theorem c1_counterexample :
    parseMemcacheStep 0 false true 0 5 = .inline ∧
      ¬ specInlineCond 0 false true 0 5 := by
  constructor
  · rfl
  · intro h
    exact absurd h.2.2.1 (by decide)

/-- C1 (amended).  On the RESP path the frame is dispatched inline iff
the dispatch queue is empty, `async_dispatch` is false, `force_dispatch`
is false and the parser consumed all buffered bytes; otherwise it is
copied into a new frame and appended to the queue, but the dispatch
worker is woken only when the queue became size 1 (a queue of more than
10 makes the reader yield instead).  On the memcache path the frame is
dispatched inline iff the queue is empty and `async_dispatch` is false
(`force_dispatch` and residual buffered bytes are not consulted), and in
every other case the command is not queued at all. -/
theorem c1_amended :
    (∀ (qLen : Nat) (a f : Bool) (c l : Nat),
        parseRedisStep qLen a f c l = .inline ↔ specInlineCond qLen a f c l) ∧
    (∀ (qLen : Nat) (a f : Bool) (c l : Nat), ¬ specInlineCond qLen a f c l →
        parseRedisStep qLen a f c l =
          (if qLen = 0 then .queuedNotify
           else if 10 ≤ qLen then .queuedYield else .queuedSilent)) ∧
    (∀ (qLen : Nat) (a f : Bool) (c l : Nat),
        parseMemcacheStep qLen a f c l = .inline ↔ (qLen = 0 ∧ a = false)) ∧
    (∀ (qLen : Nat) (a f : Bool) (c l : Nat), ¬ (qLen = 0 ∧ a = false) →
        parseMemcacheStep qLen a f c l = .dropped) :=
  ⟨parseRedisStep_inline_iff, parseRedisStep_queued,
   parseMemcacheStep_inline_iff, parseMemcacheStep_dropped⟩

/-- Witness for C1 (amended): concrete instances of the four conjuncts. -/
theorem c1_amended_witness :
    (parseRedisStep 0 false false 4 4 = .inline ↔ specInlineCond 0 false false 4 4) ∧
    parseRedisStep 3 true false 4 4 = .queuedSilent ∧
    (parseMemcacheStep 0 false true 0 5 = .inline ↔ (0 = 0 ∧ false = false)) ∧
    parseMemcacheStep 2 false true 0 5 = .dropped := by
  refine ⟨c1_amended.1 0 false false 4 4, ?_, c1_amended.2.2.1 0 false true 0 5, ?_⟩
  · have h := c1_amended.2.1 3 true false 4 4 (by intro h; exact absurd h.2.1 (by decide))
    simpa using h
  · exact c1_amended.2.2.2 2 false true 0 5 (by intro h; exact absurd h.1 (by decide))

/-! ## The async pub/sub enqueue entry point (claims C10 and C2)

`Connection::SendMsgVecAsync` (dragonfly_connection.cc lines 248-267)
is called by publishers to hand a `PubMessage` plus a `BlockingCounter`
to a subscriber connection.  We model the connection-side state it
touches, and, for the temporal claim C2, the order of its observable
actions as an event trace. -/

/-- The slice of connection state read and written by
`SendMsgVecAsync` and by the dispatch fiber. -/
structure ConnQueueState where
  connClosing : Bool
  dispatchQ : List Frame
  bcDecs : Nat      -- number of BlockingCounter::Dec calls performed so far
  notifies : Nat    -- number of evc_.notify() calls performed so far
  deriving DecidableEq, Repr

/-- `Connection::SendMsgVecAsync`: if the connection is closing, only
decrement the counter and return; otherwise allocate an `AsyncMsg`
request, push it onto `dispatch_q_` and notify the dispatch fiber when
the queue became size 1. -/
def sendMsgVecAsync (channel message pattern : String)
    (s : ConnQueueState) : ConnQueueState :=
  if s.connClosing then
    { s with bcDecs := s.bcDecs + 1 }
  else
    { s with
      dispatchQ := s.dispatchQ ++ [Frame.pub channel message pattern],
      notifies := if s.dispatchQ.length + 1 = 1 then s.notifies + 1 else s.notifies }

/-- C10.  Invoking `SendMsgVecAsync` on a connection whose
`conn_closing` flag is set decrements the completion counter
immediately, enqueues nothing and performs no notification, so the
closing subscriber never emits the message and the publisher is not
blocked by it. -/
theorem c10_closing_decrements_and_drops (ch msg pat : String)
    (s : ConnQueueState) (h : s.connClosing = true) :
    sendMsgVecAsync ch msg pat s =
      { s with bcDecs := s.bcDecs + 1 } := by
  unfold sendMsgVecAsync
  rw [h]
  rfl

/-- Witness for C10 at a concrete closing state. -/
theorem c10_witness :
    sendMsgVecAsync "c" "m" "" ⟨true, [], 0, 0⟩ = ⟨true, [], 1, 0⟩ :=
  c10_closing_decrements_and_drops "c" "m" "" ⟨true, [], 0, 0⟩ rfl

/-! ### Event traces of a pub/sub delivery (claim C2) -/

/-- Observable actions during the delivery of one pub/sub message. -/
inductive Ev where
  | enqueueFrame   : Ev  -- dispatch_q_.push_back of the AsyncMsg request
  | notifyWorker   : Ev  -- evc_.notify()
  | copyPayload    : Ev  -- payload copied into connection-owned backing storage
  | sendMessageArr : Ev  -- SendStringArr of the message/pmessage reply
  | bcDec          : Ev  -- BlockingCounter::Dec on the completion counter
  | freeMsg        : Ev  -- AsyncMsg and Request freed
  deriving DecidableEq, Repr

/-- Action order of `Connection::SendMsgVecAsync` (the real connection):
on a closing connection only the counter is decremented; otherwise the
request (holding views into the publisher-owned payload, nothing is
copied) is enqueued, with a notify when the queue became size 1. -/
def connSendMsgVecAsyncTrace (closing : Bool) (qLenBefore : Nat) : List Ev :=
  if closing then [.bcDec]
  else .enqueueFrame :: (if qLenBefore + 1 = 1 then [.notifyWorker] else [])

/-- Action order of `Connection::DispatchFiber` when it pops a request
with `async_msg` set (dragonfly_connection.cc lines 574-597): build and
send the message/pmessage array, then decrement the counter, then free. -/
def connDispatchPubTrace : List Ev :=
  [.sendMessageArr, .bcDec, .freeMsg]

/-- End-to-end action order of one delivery through the real
connection: the publisher-side enqueue followed by the dispatch-fiber
processing of that frame. -/
def connDeliveryTrace (qLenBefore : Nat) : List Ev :=
  connSendMsgVecAsyncTrace false qLenBefore ++ connDispatchPubTrace

/-- Action order of `TestConnection::SendMsgVecAsync` (test_utils.cc):
the channel, message and optional pattern bytes are copied into
`backing_str_`, the copy is recorded in `messages`, and the counter is
decremented immediately; no reply is ever written. -/
def testConnDeliveryTrace : List Ev :=
  [.copyPayload, .bcDec]

/-- The handoff-complete delivery semantics exactly as the claim words
them: the counter is decremented after the payload has been copied into
the connection-owned storage, and not later at the point the reply is
written.  Stated from the spec, to be compared with the traces read off
the code. -/
def handoffCompleteSemantics (tr : List Ev) : Prop :=
  Ev.copyPayload ∈ tr ∧ Ev.bcDec ∈ tr ∧
  tr.indexOf Ev.copyPayload < tr.indexOf Ev.bcDec ∧
  (Ev.sendMessageArr ∈ tr → tr.indexOf Ev.bcDec < tr.indexOf Ev.sendMessageArr)

instance (tr : List Ev) : Decidable (handoffCompleteSemantics tr) := by
  unfold handoffCompleteSemantics; infer_instance

/-- C2.  The claim quantifies over every delivery handed to a
subscriber via its async-enqueue entry point.  The real
`facade::Connection` refutes it: in its delivery trace the payload is
never copied into connection-owned storage, and the counter is
decremented only after `SendStringArr` has written the message reply. -/
theorem c2_counterexample :
    connDeliveryTrace 0 =
      [.enqueueFrame, .notifyWorker, .sendMessageArr, .bcDec, .freeMsg] ∧
    ¬ handoffCompleteSemantics (connDeliveryTrace 0) := by
  constructor
  · rfl
  · intro h
    have := h.1
    revert this
    decide

/-- C2 (amended).  Handoff-complete semantics hold for the test
connection (`TestConnection::SendMsgVecAsync` copies the payload and
decrements immediately, before any reply could be written); for the
real connection the counter is decremented by the dispatch fiber only
after the message/pmessage reply has been written, and on an
already-closing connection it is decremented immediately with nothing
enqueued. -/
theorem c2_amended :
    handoffCompleteSemantics testConnDeliveryTrace ∧
    (∀ qLenBefore : Nat,
        Ev.copyPayload ∉ connDeliveryTrace qLenBefore ∧
        (connDeliveryTrace qLenBefore).indexOf Ev.sendMessageArr <
          (connDeliveryTrace qLenBefore).indexOf Ev.bcDec) ∧
    (∀ qLenBefore : Nat, connSendMsgVecAsyncTrace true qLenBefore = [.bcDec]) := by
  refine ⟨by decide, ?_, fun _ => rfl⟩
  intro q
  match q with
  | 0 => decide
  | n + 1 =>
      have h : connDeliveryTrace (n + 1) =
          [.enqueueFrame, .sendMessageArr, .bcDec, .freeMsg] := by
        unfold connDeliveryTrace connSendMsgVecAsyncTrace connDispatchPubTrace
        have : ¬ (n + 1 + 1 = 1) := by omega
        simp [this]
      rw [h]
      decide

/-! ## The dispatch fiber and its exit cleanup (claim C5)

`Connection::DispatchFiber` (dragonfly_connection.cc lines 560-626)
loops popping requests until the connection closes or the reply builder
reports a write error, then drains whatever is left in the queue,
freeing every request and decrementing the counter of every pub/sub
request. -/

/-- The dispatch-fiber state: the flags it polls, its queue, and
counters of its observable effects. -/
structure Worker where
  closing : Bool       -- cc_->conn_closing
  builderErr : Bool    -- builder->GetError()
  q : List Frame       -- dispatch_q_
  bcDecs : Nat         -- BlockingCounter::Dec calls
  frees : Nat          -- requests destroyed and mi_free-ed
  replies : Nat        -- replies written (SendStringArr or DispatchCommand)
  deriving DecidableEq, Repr

/-- Processing of one popped request in the main loop of
`DispatchFiber`: a pub/sub request writes the message array, decrements
its counter and is freed; a command request runs the external executor
and is freed. -/
def processFrame (w : Worker) (f : Frame) : Worker :=
  match f with
  | .pub _ _ _ =>
      { w with bcDecs := w.bcDecs + 1, frees := w.frees + 1,
               replies := w.replies + 1 }
  | .cmd _ =>
      { w with frees := w.frees + 1, replies := w.replies + 1 }

/-- The clean-up loop at the end of `DispatchFiber` ("Clean up
leftovers"): pop every remaining request; if it carries an `async_msg`,
decrement its counter and free the `AsyncMsg`; free the request. -/
def cleanupFrames : List Frame → Worker → Worker
  | [], w => w
  | f :: rest, w =>
      cleanupFrames rest
        { w with bcDecs := (match f with
                            | .pub _ _ _ => w.bcDecs + 1
                            | .cmd _ => w.bcDecs),
                 frees := w.frees + 1 }

/-- The clean-up loop pops every request of the queue in order. -/
def cleanupLoop (w : Worker) : Worker :=
  { cleanupFrames w.q w with q := [] }

/-- Exit path of `DispatchFiber`: set `conn_closing` and run the
clean-up loop. -/
def dispatchFiberExit (w : Worker) : Worker :=
  cleanupLoop { w with closing := true }

/-- The main loop of `DispatchFiber`, with explicit fuel.  The loop
condition is `!builder->GetError()`; the fiber then awaits
`conn_closing || !dispatch_q_.empty()` and breaks on `conn_closing`.
`none` models a fiber that is still blocked on the awaited condition
(or out of fuel); `some w` is the worker state after the clean-up loop
has run. -/
def workerLoop : Nat → Worker → Option Worker
  | 0, _ => none
  | fuel + 1, w =>
      if w.builderErr then some (dispatchFiberExit w)
      else if w.closing then some (dispatchFiberExit w)
      else
        match w.q with
        | [] => none  -- evc_.await blocks: queue empty and not closing
        | f :: rest => workerLoop fuel (processFrame { w with q := rest } f)

theorem cleanupFrames_spec (l : List Frame) (w : Worker) :
    cleanupFrames l w =
      { w with bcDecs := w.bcDecs + l.countP (·.isPub),
               frees := w.frees + l.length } := by
  induction l generalizing w with
  | nil => simp [cleanupFrames]
  | cons f rest ih =>
      unfold cleanupFrames
      rw [ih]
      cases f <;>
        simp [List.countP_cons, Frame.isPub] <;>
        omega

theorem cleanupLoop_spec (w : Worker) :
    cleanupLoop w =
      { w with q := [],
               bcDecs := w.bcDecs + w.q.countP (·.isPub),
               frees := w.frees + w.q.length } := by
  unfold cleanupLoop
  rw [cleanupFrames_spec]

/-- C5.  Whenever the dispatch worker exits — its loop stops on a
reply-builder (writer) error or on the closing flag — the exit path
frees every request still sitting in the dispatch queue and decrements
the completion counter of every remaining pub/sub request, so a
publisher waiting on a completion counter is never left blocked; the
queue is empty when the fiber returns.  Frames processed normally
before the exit also decrement their counter exactly once. -/
theorem c5_worker_exit_cleanup (fuel : Nat) (w w' : Worker)
    (h : workerLoop fuel w = some w') :
    w'.q = [] ∧ w'.closing = true ∧
    w'.bcDecs = w.bcDecs + w.q.countP (·.isPub) ∧
    w'.frees = w.frees + w.q.length := by
  induction fuel generalizing w with
  | zero => exact absurd h (by simp [workerLoop])
  | succ fuel ih =>
      unfold workerLoop at h
      by_cases hbe : w.builderErr = true
      · rw [if_pos hbe] at h
        obtain rfl : dispatchFiberExit w = w' := Option.some.inj h
        unfold dispatchFiberExit
        rw [cleanupLoop_spec]
        exact ⟨rfl, rfl, rfl, rfl⟩
      · rw [if_neg hbe] at h
        by_cases hcl : w.closing = true
        · rw [if_pos hcl] at h
          obtain rfl : dispatchFiberExit w = w' := Option.some.inj h
          unfold dispatchFiberExit
          rw [cleanupLoop_spec]
          exact ⟨rfl, rfl, rfl, rfl⟩
        · rw [if_neg hcl] at h
          match hq : w.q with
          | [] =>
              rw [hq] at h
              exact absurd h (by simp)
          | f :: rest =>
              rw [hq] at h
              have hih := ih _ h
              refine ⟨hih.1, hih.2.1, ?_, ?_⟩ <;>
                cases f <;>
                simp [processFrame, List.countP_cons, Frame.isPub] at hih ⊢ <;>
                omega

/-- Witness for C5: a closing worker with one pending pub/sub frame and
one pending command frame exits with an empty queue, both frames freed
and the pub/sub counter decremented. -/
theorem c5_witness :
    (⟨true, false, [], 1, 2, 0⟩ : Worker).q = [] ∧
    (⟨true, false, [], 1, 2, 0⟩ : Worker).closing = true ∧
    (⟨true, false, [], 1, 2, 0⟩ : Worker).bcDecs =
      (⟨true, false, [Frame.pub "ch" "m" "", Frame.cmd ["PING"]], 0, 0, 0⟩ : Worker).bcDecs +
        (⟨true, false, [Frame.pub "ch" "m" "", Frame.cmd ["PING"]], 0, 0, 0⟩ : Worker).q.countP (·.isPub) ∧
    (⟨true, false, [], 1, 2, 0⟩ : Worker).frees =
      (⟨true, false, [Frame.pub "ch" "m" "", Frame.cmd ["PING"]], 0, 0, 0⟩ : Worker).frees +
        (⟨true, false, [Frame.pub "ch" "m" "", Frame.cmd ["PING"]], 0, 0, 0⟩ : Worker).q.length :=
  c5_worker_exit_cleanup 1
    ⟨true, false, [Frame.pub "ch" "m" "", Frame.cmd ["PING"]], 0, 0, 0⟩
    ⟨true, false, [], 1, 2, 0⟩ (by decide)

/-! ## Read-buffer growth on NEED_MORE (claim C8)

`Connection::IoLoop` (dragonfly_connection.cc lines 521-541) grows
`io_buf_` after a NEED_MORE parse result; `kMinReadSize` and
`kMaxReadSize` are the constants at lines 68-69. -/

def kMinReadSize : Nat := 256

def kMaxReadSize : Nat := 32 * 1024

/-- The read buffer starts at `kMinReadSize` bytes
(`Connection::Connection` initializes `io_buf_(kMinReadSize)`). -/
def initialReadBufCapacity : Nat := kMinReadSize

/-- The growth decision of the NEED_MORE branch of `IoLoop`: the
`Reserve` request issued, if any.  `capacity` is `io_buf_.Capacity()`,
`parserHint` the parser length hint (0 on the memcache path),
`appendBufSize` the size of the append buffer handed to `Recv` and
`recvSz` the bytes that `Recv` returned. -/
def needMoreGrowth (capacity parserHint appendBufSize recvSz : Nat) : Option Nat :=
  if capacity < kMaxReadSize then
    if capacity < parserHint then some (min kMaxReadSize parserHint)
    else if appendBufSize = recvSz ∧ capacity / 2 < appendBufSize then
      some (capacity * 2)
    else none
  else none

/-- Modelled from the spec: `io_buf_` is an external growable buffer
(`base::IoBuf`, not part of the sources); per the specification it is
"growable" and grown "geometrically", so `Reserve(n)` is modelled as
rounding the request up to the next power of two and never shrinking. -/
def ioBufReserve (capacity request : Nat) : Nat :=
  max capacity (2 ^ Nat.clog 2 request)

/-- Capacity of the read buffer after the NEED_MORE branch ran. -/
def needMoreNewCapacity (capacity parserHint appendBufSize recvSz : Nat) : Nat :=
  match needMoreGrowth capacity parserHint appendBufSize recvSz with
  | none => capacity
  | some r => ioBufReserve capacity r

/-- C8.  The claim asserts that on every NEED_MORE result (below the
32 KiB cap) the buffer is expanded, by doubling or to the parser hint.
The code refutes it: a read that only partially filled the append
buffer triggers no expansion at all before the next read — here at
capacity 256 with no parser hint, a 200-byte append buffer and a
10-byte read, the NEED_MORE branch issues no `Reserve`. -/
theorem c8_counterexample :
    kMinReadSize ≤ 256 ∧ 256 < kMaxReadSize ∧
      needMoreGrowth 256 0 200 10 = none := by
  refine ⟨by decide, by decide, ?_⟩
  rfl

/-- C8 (amended).  Starting from a power-of-two capacity between 256
bytes and 32 KiB (the initial capacity is 256), the NEED_MORE branch
keeps the capacity a power of two within those bounds and never shrinks
it.  Growth happens only while the capacity is below 32 KiB, and then:
to `min(32 KiB, hint)` when the parser length hint exceeds the current
capacity; else by doubling when the last read filled the entire append
buffer and that buffer exceeded half the capacity; in every other case
(in particular a partial read with a small hint) no expansion happens
before the next read is issued. -/
theorem c8_amended :
    initialReadBufCapacity = kMinReadSize ∧ initialReadBufCapacity = 2 ^ 8 ∧
    (∀ cap hint app recv k, cap = 2 ^ k →
      kMinReadSize ≤ cap → cap ≤ kMaxReadSize →
      ((∃ j, needMoreNewCapacity cap hint app recv = 2 ^ j) ∧
       kMinReadSize ≤ needMoreNewCapacity cap hint app recv ∧
       needMoreNewCapacity cap hint app recv ≤ kMaxReadSize ∧
       cap ≤ needMoreNewCapacity cap hint app recv)) ∧
    (∀ cap hint app recv,
      (needMoreGrowth cap hint app recv = none ↔
        (kMaxReadSize ≤ cap ∨
          (hint ≤ cap ∧ ¬ (app = recv ∧ cap / 2 < app))))) ∧
    (∀ cap hint app recv, cap < kMaxReadSize → cap < hint →
      needMoreGrowth cap hint app recv = some (min kMaxReadSize hint)) ∧
    (∀ cap hint app recv, cap < kMaxReadSize → hint ≤ cap →
      app = recv → cap / 2 < app →
      needMoreGrowth cap hint app recv = some (cap * 2)) := by
  refine ⟨rfl, rfl, ?_, ?_, ?_, ?_⟩
  · intro cap hint app recv k hk hlo hhi
    rcases hg : needMoreGrowth cap hint app recv with _ | r
    · have hnc : needMoreNewCapacity cap hint app recv = cap := by
        unfold needMoreNewCapacity
        rw [hg]
      rw [hnc]
      exact ⟨⟨k, hk⟩, hlo, hhi, le_refl _⟩
    · have hnc : needMoreNewCapacity cap hint app recv = ioBufReserve cap r := by
        unfold needMoreNewCapacity
        rw [hg]
      rw [hnc]
      have hr : r ≤ kMaxReadSize := by
          unfold needMoreGrowth at hg
          split at hg
          · split at hg
            · obtain rfl : min kMaxReadSize hint = r := Option.some.inj hg
              exact min_le_left _ _
            · split at hg
              · obtain rfl : cap * 2 = r := Option.some.inj hg
                subst hk
                rename_i hcap _ _
                have h15 : k < 15 := by
                  by_contra hge
                  push_neg at hge
                  have : kMaxReadSize ≤ 2 ^ k :=
                    le_trans (by norm_num [kMaxReadSize]) (Nat.pow_le_pow_right (by norm_num) hge)
                  omega
                calc 2 ^ k * 2 = 2 ^ (k + 1) := by ring
                  _ ≤ 2 ^ 15 := Nat.pow_le_pow_right (by norm_num) (by omega)
                  _ = kMaxReadSize := by norm_num [kMaxReadSize]
              · exact absurd hg (by simp)
          · exact absurd hg (by simp)
      have hple : 2 ^ Nat.clog 2 r ≤ kMaxReadSize := by
        have : Nat.clog 2 r ≤ 15 := by
          have h1 : Nat.clog 2 r ≤ Nat.clog 2 kMaxReadSize := Nat.clog_mono_right 2 hr
          have h2 : Nat.clog 2 kMaxReadSize = 15 := by
            have : kMaxReadSize = 2 ^ 15 := by norm_num [kMaxReadSize]
            rw [this, Nat.clog_pow 2 15 (by norm_num)]
          omega
        calc 2 ^ Nat.clog 2 r ≤ 2 ^ 15 := Nat.pow_le_pow_right (by norm_num) this
          _ = kMaxReadSize := by norm_num [kMaxReadSize]
      unfold ioBufReserve
      rcases max_cases cap (2 ^ Nat.clog 2 r) with ⟨hm, hle⟩ | ⟨hm, hle⟩ <;>
        rw [hm]
      · exact ⟨⟨k, hk⟩, hlo, hhi, le_refl _⟩
      · exact ⟨⟨Nat.clog 2 r, rfl⟩, le_trans hlo (le_of_lt hle), hple,
          le_of_lt hle⟩
  · intro cap hint app recv
    unfold needMoreGrowth
    split <;> rename_i h1
    · split <;> rename_i h2
      · simp only [Option.some_ne_none, false_iff]
        push_neg
        exact ⟨h1, fun hle => absurd h2 (by omega)⟩
      · split <;> rename_i h3
        · simp only [Option.some_ne_none, false_iff]
          push_neg
          exact ⟨h1, fun _ => h3⟩
        · simp only [true_iff]
          right
          exact ⟨by omega, h3⟩
    · simp only [true_iff]
      left
      omega
  · intro cap hint app recv h1 h2
    unfold needMoreGrowth
    rw [if_pos h1, if_pos h2]
  · intro cap hint app recv h1 h2 h3 h4
    unfold needMoreGrowth
    rw [if_pos h1, if_neg (by omega), if_pos ⟨h3, h4⟩]

/-- Witness for C8 (amended): the concrete parts at capacity 256 with a
full 256-byte read (the doubling case) and the decision equations. -/
theorem c8_amended_witness :
    (∃ j, needMoreNewCapacity 256 0 256 256 = 2 ^ j) ∧
    needMoreGrowth 256 0 256 256 = some 512 ∧
    needMoreGrowth 256 5000 0 0 = some 5000 ∧
    needMoreGrowth 256 120000 0 0 = some kMaxReadSize := by
  refine ⟨(c8_amended.2.2.1 256 0 256 256 8 rfl (by decide) (by decide)).1, ?_, ?_, ?_⟩
  · have h := c8_amended.2.2.2.2.2 256 0 256 256 (by decide) (by decide) rfl (by decide)
    simpa using h
  · have h := c8_amended.2.2.2.2.1 256 5000 0 0 (by decide) (by decide)
    simpa [kMaxReadSize] using h
  · have h := c8_amended.2.2.2.2.1 256 120000 0 0 (by decide) (by decide)
    simpa [kMaxReadSize] using h

/-! ## The HTTP probe on first read (claim C9)

`Connection::CheckForHttpProto` (dragonfly_connection.cc lines 287-310)
reads until a newline is buffered (or 1024 bytes passed without one)
and then decides; `MatchHttp11Line` is at lines 64-66.  We model the
decision on the buffered bytes once the first newline has arrived. -/

/-- The bytes before the first newline of the buffered input. -/
def httpLine (input : List Char) : List Char :=
  input.takeWhile (fun ch => ch ≠ '\n')

/-- `MatchHttp11Line`: `absl::StartsWith(line, "GET ") &&
absl::EndsWith(line, "HTTP/1.1")`. -/
def matchHttp11Line (line : List Char) : Bool :=
  List.isPrefixOf "GET ".toList line && List.isSuffixOf "HTTP/1.1".toList line

/-- Decision of `CheckForHttpProto` once the buffered input contains a
newline: take the bytes before it; if fewer than 10 or not
CR-terminated the connection is not HTTP; otherwise strip the CR and
apply `MatchHttp11Line`. -/
def checkForHttpProto (input : List Char) : Bool :=
  if (httpLine input).length < 10 then false
  else if (httpLine input).getLast? = some '\r' then
    matchHttp11Line (httpLine input).dropLast
  else false

/-- The HTTP handoff condition exactly as the claim words it: the
prefix before the first newline, with the trailing CR removed, begins
with "GET " and ends with " HTTP/1.1" (note the leading space).  Stated
from the spec, to be compared with the decision read off the code. -/
def specHttpCond (input : List Char) : Prop :=
  List.isPrefixOf "GET ".toList (httpLine input).dropLast = true ∧
  List.isSuffixOf " HTTP/1.1".toList (httpLine input).dropLast = true

instance (input : List Char) : Decidable (specHttpCond input) := by
  unfold specHttpCond; infer_instance

/-- C9.  The claim requires the line to end with " HTTP/1.1" (with a
space).  The code refutes it: `MatchHttp11Line` only checks the suffix
"HTTP/1.1", so the request line "GET /xHTTP/1.1" is handed to the HTTP
admin path although it does not end with " HTTP/1.1". -/
theorem c9_counterexample :
    checkForHttpProto ("GET /xHTTP/1.1\r\nrest".toList) = true ∧
    ¬ specHttpCond ("GET /xHTTP/1.1\r\nrest".toList) := by
  constructor
  · rfl
  · decide

/-- C9 (amended).  On first read the connection is handed to the HTTP
admin path iff the buffered prefix before the first newline is at least
10 bytes long, ends with CR, and with that CR removed begins with
"GET " and ends with "HTTP/1.1" (no space before "HTTP/1.1" is
required); otherwise RESP/memcache dispatch begins with the already
read bytes retained in the buffer. -/
theorem c9_amended (input : List Char) :
    checkForHttpProto input = true ↔
      (10 ≤ (httpLine input).length ∧
       (httpLine input).getLast? = some '\r' ∧
       List.isPrefixOf "GET ".toList (httpLine input).dropLast = true ∧
       List.isSuffixOf "HTTP/1.1".toList (httpLine input).dropLast = true) := by
  unfold checkForHttpProto
  by_cases h1 : (httpLine input).length < 10
  · rw [if_pos h1]
    simp only [Bool.false_eq_true, false_iff]
    intro h
    exact absurd h.1 (by omega)
  · rw [if_neg h1]
    by_cases h2 : (httpLine input).getLast? = some '\r'
    · rw [if_pos h2]
      unfold matchHttp11Line
      simp only [Bool.and_eq_true]
      constructor
      · rintro ⟨hp, hs⟩
        exact ⟨by omega, h2, hp, hs⟩
      · rintro ⟨_, _, hp, hs⟩
        exact ⟨hp, hs⟩
    · rw [if_neg h2]
      simp only [Bool.false_eq_true, false_iff]
      rintro ⟨_, hc, _⟩
      exact h2 hc

/-! ## Subscribe / unsubscribe in the connection context (claims C4, C3)

`dfly::ConnectionContext::ChangeSubscription`, `ChangePSub` and
`OnClose` (conn_context.cc).  Channel and pattern sets
(`absl::flat_hash_set`) are modelled as duplicate-free lists; shard ids
as naturals; the `Shard(channel, n)` hash as an abstract function. -/

/-- `ConnectionState::SubscribeInfo`: the connection-local channel and
pattern sets. -/
structure SubscribeInfo where
  channels : List String
  patterns : List String
  deriving DecidableEq, Repr

/-- `SubscribeInfo::IsEmpty`. -/
def SubscribeInfo.IsEmpty (si : SubscribeInfo) : Bool :=
  si.channels.isEmpty && si.patterns.isEmpty

/-- The slice of `ConnectionContext` state that the subscription
operations touch. -/
structure ConnCtx where
  subscribeInfo : Option SubscribeInfo
  forceDispatch : Bool
  deriving DecidableEq, Repr

/-- One subscribe/unsubscribe acknowledgement frame:
`StartArray(3); SendBulkString(action); SendBulkString(name); SendLong(count)`. -/
structure Ack where
  action : String
  name : String
  count : Nat
  deriving DecidableEq, Repr

/-- One registry update run on a shard:
`AddSubscription`/`RemoveSubscription` (or `AddGlobPattern`/`RemoveGlobPattern`). -/
structure SubOp where
  toAdd : Bool
  sid : Nat
  name : String
  deriving DecidableEq, Repr

/-- One iteration of the gather loop of `ChangeSubscription`/`ChangePSub`
on one argument: `emplace` into or `erase` from the set, reporting
whether the set changed (the loop variable `res`). -/
def subStep (toAdd : Bool) (s : List String) (arg : String) : List String × Bool :=
  if toAdd then
    if arg ∈ s then (s, false) else (s ++ [arg], true)
  else
    if arg ∈ s then (s.erase arg, true) else (s, false)

/-- The gather loop over all arguments: returns the final set, the
per-argument post-operation sizes (the `result` vector) and the
arguments for which the set changed (the gathered `channels`/`patterns`
vector), in input order. -/
def subLoop (toAdd : Bool) (s : List String) : List String → List String × List Nat × List String
  | [] => (s, [], [])
  | a :: rest =>
      let p := subStep toAdd s a
      let r := subLoop toAdd p.1 rest
      (r.1, p.1.length :: r.2.1, if p.2 then a :: r.2.2 else r.2.2)

/-- The strict-weak order `std::sort` uses on
`pair<Nat, string_view>`, as the induced lexicographic
less-or-equal. -/
def pairLt (a b : Nat × String) : Prop :=
  a.1 < b.1 ∨ (a.1 = b.1 ∧ a.2 ≤ b.2)

instance : DecidableRel pairLt := fun a b => by
  unfold pairLt; infer_instance

instance : IsTotal (Nat × String) pairLt := by
  constructor
  intro a b
  rcases Nat.lt_trichotomy a.1 b.1 with h | h | h
  · exact Or.inl (Or.inl h)
  · rcases le_total a.2 b.2 with h2 | h2
    · exact Or.inl (Or.inr ⟨h, h2⟩)
    · exact Or.inr (Or.inr ⟨h.symm, h2⟩)
  · exact Or.inr (Or.inl h)

instance : IsTrans (Nat × String) pairLt := by
  constructor
  intro a b c hab hbc
  rcases hab with h1 | ⟨h1, h1s⟩ <;> rcases hbc with h2 | ⟨h2, h2s⟩
  · exact Or.inl (lt_trans h1 h2)
  · exact Or.inl (h2 ▸ h1)
  · exact Or.inl (h1 ▸ h2)
  · exact Or.inr ⟨h1.trans h2, le_trans h1s h2s⟩

/-- `shard_idx` after the counting loop and the in-place
cumulative-sum loop of `ChangeSubscription` (conn_context.cc lines
57-69): entry `i` ends up as the sum of the per-shard counts of all
shards below `i`, i.e. the start index in the sorted channels vector of
the entries owned by shard `i`. -/
def shardIdx (l : List (Nat × String)) (i : Nat) : Nat :=
  ((List.range i).map (fun j => l.countP (fun p => p.1 == j))).sum

/-- The slice of the sorted channels vector that the brief task on
shard `sid` iterates over: `for (i = shard_idx[sid]; i < shard_idx[sid+1]; ++i)`. -/
def shardSlice (l : List (Nat × String)) (sid : Nat) : List (Nat × String) :=
  (l.drop (shardIdx l sid)).take (shardIdx l (sid + 1) - shardIdx l sid)

/-- The registry updates performed by `RunBriefInParallel` with the
per-shard predicate `shard_idx[sid+1] > shard_idx[sid]`: every shard
applies its slice of the sorted vector (a shard with an empty slice
contributes nothing, exactly as the predicate skips it). -/
def distributeOps (nshards : Nat) (toAdd : Bool)
    (l : List (Nat × String)) : List SubOp :=
  (List.range nshards).flatMap
    (fun sid => (shardSlice l sid).map (fun p => ⟨toAdd, sid, p.2⟩))

/-- The channel set of the connection (empty when no `SubscribeInfo`
exists). -/
def subChannels (c : ConnCtx) : List String :=
  match c.subscribeInfo with
  | some si => si.channels
  | none => []

/-- The pattern set of the connection. -/
def subPatterns (c : ConnCtx) : List String :=
  match c.subscribeInfo with
  | some si => si.patterns
  | none => []

/-- `ConnectionContext::ChangeSubscription` (conn_context.cc lines
15-108): returns the new connection state, the acknowledgement frames
written (empty unless `to_reply`), and the registry updates that the
brief shard tasks performed. -/
def changeSubscription (shardOf : String → Nat) (nshards : Nat)
    (toAdd toReply : Bool) (args : List String) (c : ConnCtx) :
    ConnCtx × List Ack × List SubOp :=
  let actionStr := if toAdd then "subscribe" else "unsubscribe"
  if toAdd = false ∧ c.subscribeInfo = none then
    -- `if (to_add || conn_state.subscribe_info)` fails: only the reply
    -- loop runs, over the zero-initialized result vector.
    (c, if toReply then args.map (fun a => ⟨actionStr, a, 0⟩) else [], [])
  else
    let si0 : SubscribeInfo := c.subscribeInfo.getD ⟨[], []⟩
    let force0 : Bool := if c.subscribeInfo = none then true else c.forceDispatch
    let r := subLoop toAdd si0.channels args
    let si1 : SubscribeInfo := ⟨r.1, si0.patterns⟩
    let st : ConnCtx :=
      if toAdd = false ∧ si1.IsEmpty then ⟨none, false⟩ else ⟨some si1, force0⟩
    let sorted := List.insertionSort pairLt (r.2.2.map (fun ch => (shardOf ch, ch)))
    (st,
     if toReply then (args.zip r.2.1).map (fun p => ⟨actionStr, p.1, p.2⟩) else [],
     distributeOps nshards toAdd sorted)

/-- `ConnectionContext::ChangePSub` (conn_context.cc lines 110-176):
like `ChangeSubscription` but over the pattern set; the gathered
pattern list is not sharded — `RunBriefInParallel` runs the full list
on every shard. -/
def changePSub (nshards : Nat) (toAdd toReply : Bool)
    (args : List String) (c : ConnCtx) :
    ConnCtx × List Ack × List SubOp :=
  let actionStr := if toAdd then "psubscribe" else "punsubscribe"
  if toAdd = false ∧ c.subscribeInfo = none then
    (c, if toReply then args.map (fun a => ⟨actionStr, a, 0⟩) else [], [])
  else
    let si0 : SubscribeInfo := c.subscribeInfo.getD ⟨[], []⟩
    let force0 : Bool := if c.subscribeInfo = none then true else c.forceDispatch
    let r := subLoop toAdd si0.patterns args
    let si1 : SubscribeInfo := ⟨si0.channels, r.1⟩
    let st : ConnCtx :=
      if toAdd = false ∧ si1.IsEmpty then ⟨none, false⟩ else ⟨some si1, force0⟩
    (st,
     if toReply then (args.zip r.2.1).map (fun p => ⟨actionStr, p.1, p.2⟩) else [],
     (List.range nshards).flatMap (fun sid => r.2.2.map (fun pat => ⟨toAdd, sid, pat⟩)))

/-- The channel set right after the first `k` arguments of a
subscribe/unsubscribe list have been processed — the reference point of
the claim for the `k-1`-th acknowledgement count. -/
def chansAfter (toAdd : Bool) (c : ConnCtx) (args : List String) (k : Nat) : List String :=
  (subLoop toAdd (subChannels c) (args.take k)).1

/-- The pattern set right after the first `k` arguments of a
psubscribe/punsubscribe list have been processed. -/
def patsAfter (toAdd : Bool) (c : ConnCtx) (args : List String) (k : Nat) : List String :=
  (subLoop toAdd (subPatterns c) (args.take k)).1

theorem mem_of_getElem? {α : Type} {l : List α} {i : Nat} {a : α}
    (h : l[i]? = some a) : a ∈ l := by
  obtain ⟨hlt, rfl⟩ := List.getElem?_eq_some.mp h
  exact List.getElem_mem hlt

theorem subLoop_counts_length (toAdd : Bool) (s args : List String) :
    (subLoop toAdd s args).2.1.length = args.length := by
  induction args generalizing s with
  | nil => rfl
  | cons a rest ih => simp [subLoop, ih]

theorem subLoop_append (toAdd : Bool) (s l₁ l₂ : List String) :
    subLoop toAdd s (l₁ ++ l₂) =
      ((subLoop toAdd (subLoop toAdd s l₁).1 l₂).1,
       (subLoop toAdd s l₁).2.1 ++ (subLoop toAdd (subLoop toAdd s l₁).1 l₂).2.1,
       (subLoop toAdd s l₁).2.2 ++ (subLoop toAdd (subLoop toAdd s l₁).1 l₂).2.2) := by
  induction l₁ generalizing s with
  | nil => simp [subLoop]
  | cons a rest ih =>
      simp only [List.cons_append, subLoop]
      by_cases h : (subStep toAdd s a).2 = true <;> simp [h, ih]

theorem subLoop_counts_get (toAdd : Bool) (s args : List String)
    (i : Nat) (h : i < args.length) :
    (subLoop toAdd s args).2.1[i]? =
      some (subLoop toAdd s (args.take (i + 1))).1.length := by
  induction args generalizing s i with
  | nil => simp at h
  | cons a rest ih =>
      match i with
      | 0 => simp [subLoop]
      | i + 1 =>
          have hlt : i < rest.length := by
            simp at h
            omega
          simp only [subLoop, List.take_succ_cons]
          rw [List.getElem?_cons_succ, ih _ _ hlt]

theorem subStep_mem_self_add (s : List String) (a : String) :
    a ∈ (subStep true s a).1 := by
  unfold subStep
  by_cases h : a ∈ s <;> simp [h]

theorem subStep_not_mem_self_remove (s : List String) (a : String)
    (hnd : s.Nodup) : a ∉ (subStep false s a).1 := by
  unfold subStep
  by_cases h : a ∈ s <;> simp [h]
  intro hmem
  exact absurd ((hnd.mem_erase_iff).mp hmem).1 (by simp)

theorem subStep_mem_mono_add (s : List String) (a b : String)
    (h : b ∈ s) : b ∈ (subStep true s a).1 := by
  unfold subStep
  by_cases hm : a ∈ s <;> simp [hm, h]

theorem subStep_not_mem_mono_remove (s : List String) (a b : String)
    (h : b ∉ s) : b ∉ (subStep false s a).1 := by
  unfold subStep
  by_cases hm : a ∈ s <;> simp [hm]
  · intro hmem
    exact h (List.mem_of_mem_erase hmem)
  · exact h

theorem subStep_nodup (toAdd : Bool) (s : List String) (a : String)
    (hnd : s.Nodup) : (subStep toAdd s a).1.Nodup := by
  unfold subStep
  cases toAdd <;> by_cases h : a ∈ s <;> simp [h, hnd]
  · exact hnd.erase a
  · simp [List.nodup_append, hnd, h]

theorem subLoop_nodup (toAdd : Bool) (s l : List String)
    (hnd : s.Nodup) : (subLoop toAdd s l).1.Nodup := by
  induction l generalizing s with
  | nil => exact hnd
  | cons a rest ih => exact ih _ (subStep_nodup toAdd s a hnd)

theorem subLoop_mem_mono_add (s l : List String) (x : String) (h : x ∈ s) :
    x ∈ (subLoop true s l).1 := by
  induction l generalizing s with
  | nil => exact h
  | cons a rest ih => exact ih _ (subStep_mem_mono_add s a x h)

theorem subLoop_mem_add (s l : List String) (x : String) (hx : x ∈ l) :
    x ∈ (subLoop true s l).1 := by
  induction l generalizing s with
  | nil => simp at hx
  | cons a rest ih =>
      rcases List.mem_cons.mp hx with rfl | hx
      · exact subLoop_mem_mono_add _ rest x (subStep_mem_self_add s x)
      · exact ih _ hx

theorem subLoop_not_mem_mono_remove (s l : List String) (x : String)
    (h : x ∉ s) : x ∉ (subLoop false s l).1 := by
  induction l generalizing s with
  | nil => exact h
  | cons a rest ih => exact ih _ (subStep_not_mem_mono_remove s a x h)

theorem subLoop_not_mem_remove (s l : List String) (x : String)
    (hx : x ∈ l) (hnd : s.Nodup) : x ∉ (subLoop false s l).1 := by
  induction l generalizing s with
  | nil => simp at hx
  | cons a rest ih =>
      rcases List.mem_cons.mp hx with rfl | hx
      · exact subLoop_not_mem_mono_remove _ rest x
          (subStep_not_mem_self_remove s x hnd)
      · exact ih _ hx (subStep_nodup false s a hnd)

theorem subLoop_changed_mem_add (s l : List String) (x : String) :
    x ∈ (subLoop true s l).2.2 ↔ (x ∈ l ∧ x ∉ s) := by
  induction l generalizing s with
  | nil => simp [subLoop]
  | cons a rest ih =>
      simp only [subLoop]
      by_cases hm : a ∈ s
      · have hst : subStep true s a = (s, false) := by simp [subStep, hm]
        rw [hst]
        simp only [Bool.false_eq_true, if_false]
        rw [ih]
        constructor
        · rintro ⟨hx, hns⟩
          exact ⟨List.mem_cons_of_mem a hx, hns⟩
        · rintro ⟨hx, hns⟩
          rcases List.mem_cons.mp hx with rfl | hx
          · exact absurd hm hns
          · exact ⟨hx, hns⟩
      · have hst : subStep true s a = (s ++ [a], true) := by simp [subStep, hm]
        rw [hst]
        simp only [if_true, List.mem_cons]
        rw [ih]
        constructor
        · rintro (rfl | ⟨hx, hns⟩)
          · exact ⟨Or.inl rfl, hm⟩
          · exact ⟨Or.inr hx, fun hs => hns (by simp [hs])⟩
        · rintro ⟨hx, hns⟩
          by_cases hax : x = a
          · exact Or.inl hax
          · rcases hx with rfl | hxr
            · exact absurd rfl hax
            · refine Or.inr ⟨hxr, fun hs => ?_⟩
              rcases List.mem_append.mp hs with h | h
              · exact hns h
              · simp at h
                exact hax h

theorem subLoop_changed_mem_remove (s l : List String) (x : String) :
    x ∈ (subLoop false s l).2.2 ↔ (x ∈ l ∧ x ∈ s) := by
  induction l generalizing s with
  | nil => simp [subLoop]
  | cons a rest ih =>
      simp only [subLoop]
      by_cases hm : a ∈ s
      · have hst : subStep false s a = (s.erase a, true) := by simp [subStep, hm]
        rw [hst]
        simp only [if_true, List.mem_cons]
        rw [ih]
        constructor
        · rintro (rfl | ⟨hx, hns⟩)
          · exact ⟨Or.inl rfl, hm⟩
          · exact ⟨Or.inr hx, List.mem_of_mem_erase hns⟩
        · rintro ⟨rfl | hx, hns⟩
          · exact Or.inl rfl
          · by_cases hax : x = a
            · exact Or.inl hax
            · exact Or.inr ⟨hx, (List.mem_erase_of_ne hax).mpr hns⟩
      · have hst : subStep false s a = (s, false) := by simp [subStep, hm]
        rw [hst]
        simp only [Bool.false_eq_true, if_false]
        rw [ih]
        constructor
        · rintro ⟨hx, hns⟩
          exact ⟨List.mem_cons_of_mem a hx, hns⟩
        · rintro ⟨hx, hns⟩
          rcases List.mem_cons.mp hx with rfl | hx
          · exact absurd hns hm
          · exact ⟨hx, hns⟩

theorem subLoop_changed_nodup (toAdd : Bool) (s l : List String)
    (hnd : s.Nodup) : (subLoop toAdd s l).2.2.Nodup := by
  induction l generalizing s with
  | nil => simp [subLoop]
  | cons a rest ih =>
      simp only [subLoop]
      by_cases hc : (subStep toAdd s a).2 = true
      · rw [if_pos hc]
        refine List.Nodup.cons ?_ (ih _ (subStep_nodup toAdd s a hnd))
        intro hmem
        cases toAdd
        · have := (subLoop_changed_mem_remove _ rest a).mp hmem
          exact subStep_not_mem_self_remove s a hnd
            (by
              have hin : a ∈ s := by
                by_cases hm : a ∈ s
                · exact hm
                · simp [subStep, hm] at hc
              exact this.2)
        · have := (subLoop_changed_mem_add _ rest a).mp hmem
          exact this.2 (subStep_mem_self_add s a)
      · rw [if_neg hc]
        exact ih _ (subStep_nodup toAdd s a hnd)

/-- Processing an argument that already occurred earlier in the list
leaves the subscription set unchanged. -/
theorem subLoop_take_duplicate (toAdd : Bool) (s : List String)
    (args : List String) (i j : Nat) (x : String)
    (hij : i < j)
    (hxi : args[i]? = some x) (hxj : args[j]? = some x)
    (hnd : s.Nodup) :
    (subLoop toAdd s (args.take (j + 1))).1 =
      (subLoop toAdd s (args.take j)).1 := by
  have htake : args.take (j + 1) = args.take j ++ [x] := by
    rw [List.take_succ, hxj]
    rfl
  rw [htake, subLoop_append]
  have hxmem : x ∈ args.take j := by
    apply mem_of_getElem?
    rw [List.getElem?_take, if_pos hij]
    exact hxi
  cases toAdd
  · have hnot : x ∉ (subLoop false s (args.take j)).1 :=
      subLoop_not_mem_remove _ _ x hxmem hnd
    simp [subLoop, subStep, hnot]
  · have hyes : x ∈ (subLoop true s (args.take j)).1 :=
      subLoop_mem_add _ _ x hxmem
    simp [subLoop, subStep, hyes]

theorem countP_fst_lt_succ (l : List (Nat × String)) (i : Nat) :
    l.countP (fun p => decide (p.1 < i + 1)) =
      l.countP (fun p => decide (p.1 < i)) + l.countP (fun p => p.1 == i) := by
  induction l with
  | nil => simp
  | cons a l ih =>
      simp only [List.countP_cons, ih]
      rcases Nat.lt_trichotomy a.1 i with h | h | h
      · have h1 : a.1 < i + 1 := by omega
        have h2 : (a.1 == i) = false := by simp; omega
        simp [h, h1, h2]
        omega
      · have h1 : a.1 < i + 1 := by omega
        have h2 : ¬ a.1 < i := by omega
        simp [h, h1, h2]
        omega
      · have h1 : ¬ a.1 < i + 1 := by omega
        have h2 : ¬ a.1 < i := by omega
        have h3 : (a.1 == i) = false := by simp; omega
        simp [h1, h2, h3]

/-- The cumulative-sum loop of `ChangeSubscription` computes, for each
shard id, the number of gathered entries owned by smaller shards. -/
theorem shardIdx_eq_countP (l : List (Nat × String)) (i : Nat) :
    shardIdx l i = l.countP (fun p => decide (p.1 < i)) := by
  induction i with
  | zero => simp [shardIdx]
  | succ i ih =>
      unfold shardIdx at ih ⊢
      rw [List.range_succ, List.map_append, List.sum_append]
      simp only [List.map_cons, List.map_nil, List.sum_cons, List.sum_nil]
      rw [ih, countP_fst_lt_succ]
      omega

theorem mem_dropWhile_sorted {n : Nat} {l : List (Nat × String)}
    (hs : l.Pairwise (fun a b => a.1 ≤ b.1)) :
    ∀ q ∈ l.dropWhile (fun p => decide (p.1 < n)), ¬ q.1 < n := by
  induction l with
  | nil => simp
  | cons x xs ih =>
      rw [List.dropWhile_cons]
      by_cases hx : x.1 < n
      · rw [if_pos (by simpa using hx)]
        exact ih hs.of_cons
      · rw [if_neg (by simpa using hx)]
        intro q hq
        rcases List.mem_cons.mp hq with rfl | hq
        · exact hx
        · have := (List.pairwise_cons.mp hs).1 q hq
          omega

/-- Correctness of the cumulative-sum distribution: on a sorted vector
whose shard ids all lie below `nshards`, the per-shard slices
concatenate, in shard order, back to the whole vector — every gathered
entry is handed to exactly one shard task. -/
theorem slice_concat (n : Nat) (l : List (Nat × String))
    (hs : l.Pairwise (fun a b => a.1 ≤ b.1)) (hlt : ∀ p ∈ l, p.1 < n) :
    (List.range n).flatMap (shardSlice l) = l := by
  induction n generalizing l with
  | zero =>
      have : l = [] := by
        cases l with
        | nil => rfl
        | cons a l => exact absurd (hlt a (by simp)) (by omega)
      simp [this]
  | succ n ih =>
      -- split l into the entries below shard n and the entries of shard n
      set l₁ := l.takeWhile (fun p => decide (p.1 < n)) with hl₁
      set l₂ := l.dropWhile (fun p => decide (p.1 < n)) with hl₂
      have hsplit : l₁ ++ l₂ = l := List.takeWhile_append_dropWhile _ _
      have h₁lt : ∀ p ∈ l₁, p.1 < n := by
        intro p hp
        simpa using List.mem_takeWhile_imp hp
      have h₂eq : ∀ p ∈ l₂, p.1 = n := by
        intro p hp
        have h1 : ¬ p.1 < n := mem_dropWhile_sorted hs p hp
        have h2 : p.1 < n + 1 := hlt p (by rw [← hsplit]; exact List.mem_append_right _ hp)
        omega
      have h₁sorted : l₁.Pairwise (fun a b => a.1 ≤ b.1) :=
        List.Pairwise.sublist (List.takeWhile_sublist _) hs
      -- countP bookkeeping
      have hcount : ∀ i ≤ n, l.countP (fun p => decide (p.1 < i)) =
          l₁.countP (fun p => decide (p.1 < i)) := by
        intro i hi
        rw [← hsplit, List.countP_append]
        have : l₂.countP (fun p => decide (p.1 < i)) = 0 := by
          rw [List.countP_eq_zero]
          intro p hp
          have := h₂eq p hp
          simp
          omega
        omega
      have hidx : ∀ i ≤ n, shardIdx l i = shardIdx l₁ i := by
        intro i hi
        rw [shardIdx_eq_countP, shardIdx_eq_countP]
        exact hcount i hi
      have hidx_le : ∀ i, shardIdx l₁ i ≤ l₁.length := by
        intro i
        rw [shardIdx_eq_countP]
        exact List.countP_le_length _
      -- slices below n agree with the slices of l₁
      have hslice : ∀ sid < n, shardSlice l sid = shardSlice l₁ sid := by
        intro sid hsid
        unfold shardSlice
        rw [hidx sid (by omega), hidx (sid + 1) (by omega)]
        rw [← hsplit, List.drop_append_eq_append_drop,
          Nat.sub_eq_zero_of_le (hidx_le sid), List.drop_zero]
        rw [List.take_append_eq_append_take]
        have hlen : (List.drop (shardIdx l₁ sid) l₁).length =
            l₁.length - shardIdx l₁ sid := List.length_drop ..
        have hmono : shardIdx l₁ sid ≤ shardIdx l₁ (sid + 1) := by
          rw [shardIdx_eq_countP, shardIdx_eq_countP]
          exact List.countP_mono_left (by intro x hx hlt2; simp at hlt2 ⊢; omega)
        have : shardIdx l₁ (sid + 1) - shardIdx l₁ sid -
            (List.drop (shardIdx l₁ sid) l₁).length = 0 := by
          rw [hlen]
          have := hidx_le (sid + 1)
          omega
        rw [this, List.take_zero, List.append_nil]
      -- the last slice is exactly l₂
      have hlast : shardSlice l n = l₂ := by
        unfold shardSlice
        have hidxn : shardIdx l n = l₁.length := by
          rw [hidx n (le_refl n), shardIdx_eq_countP, List.countP_eq_length.mpr]
          intro p hp
          simpa using h₁lt p hp
        have hidxn1 : shardIdx l (n + 1) = l.length := by
          rw [shardIdx_eq_countP, List.countP_eq_length.mpr]
          intro p hp
          simpa using hlt p hp
        rw [hidxn, hidxn1, ← hsplit]
        rw [List.drop_append_eq_append_drop, Nat.sub_self, List.drop_zero,
          List.drop_of_length_le (le_refl _), List.nil_append]
        have hlen2 : (l₁ ++ l₂).length - l₁.length = l₂.length := by
          simp [List.length_append]
        rw [hlen2]
        exact List.take_length ..
      rw [List.range_succ, List.flatMap_append]
      have hmain : (List.range n).flatMap (shardSlice l) =
          (List.range n).flatMap (shardSlice l₁) := by
        apply List.flatMap_congr
        intro sid hsid
        exact hslice sid (by simpa using hsid)
      rw [hmain, ih l₁ h₁sorted h₁lt]
      simp [hlast, hsplit]

theorem insertionSort_pairwise_fst (v : List (Nat × String)) :
    (List.insertionSort pairLt v).Pairwise (fun a b => a.1 ≤ b.1) := by
  refine (List.sorted_insertionSort pairLt v).imp ?_
  rintro a b (h | ⟨h, _⟩)
  · exact le_of_lt h
  · exact le_of_eq h

/-- The registry updates of the sharded distribution touch exactly the
gathered names, one update per gathered entry. -/
theorem distributeOps_names (n : Nat) (toAdd : Bool)
    (l : List (Nat × String))
    (hs : l.Pairwise (fun a b => a.1 ≤ b.1)) (hlt : ∀ p ∈ l, p.1 < n) :
    (distributeOps n toAdd l).map SubOp.name = l.map Prod.snd := by
  unfold distributeOps
  rw [List.map_flatMap]
  have : (fun sid => ((shardSlice l sid).map
      (fun p => (⟨toAdd, sid, p.2⟩ : SubOp))).map SubOp.name) =
      (fun sid => (shardSlice l sid).map Prod.snd) := by
    funext sid
    rw [List.map_map]
    rfl
  rw [this, ← List.map_flatMap, slice_concat n l hs hlt]

theorem distributeOps_toAdd (n : Nat) (toAdd : Bool)
    (l : List (Nat × String)) :
    ∀ op ∈ distributeOps n toAdd l, op.toAdd = toAdd := by
  intro op hop
  unfold distributeOps at hop
  rw [List.mem_flatMap] at hop
  obtain ⟨sid, _, hmem⟩ := hop
  rw [List.mem_map] at hmem
  obtain ⟨p, _, rfl⟩ := hmem
  rfl

theorem subLoop_remove_nil (args : List String) :
    subLoop false [] args =
      ([], List.replicate args.length 0, []) := by
  induction args with
  | nil => rfl
  | cons a rest ih => simp [subLoop, subStep, ih, List.replicate_succ]

theorem zip_replicate_zero_map (args : List String) (action : String) :
    (args.zip (List.replicate args.length 0)).map
        (fun p => (⟨action, p.1, p.2⟩ : Ack)) =
      args.map (fun a => ⟨action, a, 0⟩) := by
  induction args with
  | nil => rfl
  | cons a rest ih => simp [List.replicate_succ, ih]

theorem subChannels_getD (c : ConnCtx) :
    (c.subscribeInfo.getD ⟨[], []⟩).channels = subChannels c := by
  obtain ⟨info, f⟩ := c
  cases info <;> rfl

theorem subPatterns_getD (c : ConnCtx) :
    (c.subscribeInfo.getD ⟨[], []⟩).patterns = subPatterns c := by
  obtain ⟨info, f⟩ := c
  cases info <;> rfl

/-- The acknowledgement frames of `ChangeSubscription` with `to_reply`:
one per argument, pairing each argument with its entry of the result
vector. -/
theorem changeSubscription_acks (shardOf : String → Nat) (nshards : Nat)
    (toAdd : Bool) (args : List String) (c : ConnCtx) :
    (changeSubscription shardOf nshards toAdd true args c).2.1 =
      (args.zip (subLoop toAdd (subChannels c) args).2.1).map
        (fun p => ⟨if toAdd then "subscribe" else "unsubscribe", p.1, p.2⟩) := by
  by_cases hskip : toAdd = false ∧ c.subscribeInfo = none
  · obtain ⟨rfl, hnone⟩ := hskip
    have hch : subChannels c = [] := by
      unfold subChannels
      rw [hnone]
    rw [hch, subLoop_remove_nil, zip_replicate_zero_map]
    simp [changeSubscription, hnone]
  · simp only [changeSubscription, if_neg hskip, if_true, subChannels_getD]

/-- The acknowledgement frames of `ChangePSub` with `to_reply`. -/
theorem changePSub_acks (nshards : Nat)
    (toAdd : Bool) (args : List String) (c : ConnCtx) :
    (changePSub nshards toAdd true args c).2.1 =
      (args.zip (subLoop toAdd (subPatterns c) args).2.1).map
        (fun p => ⟨if toAdd then "psubscribe" else "punsubscribe", p.1, p.2⟩) := by
  by_cases hskip : toAdd = false ∧ c.subscribeInfo = none
  · obtain ⟨rfl, hnone⟩ := hskip
    have hch : subPatterns c = [] := by
      unfold subPatterns
      rw [hnone]
    rw [hch, subLoop_remove_nil, zip_replicate_zero_map]
    simp [changePSub, hnone]
  · simp only [changePSub, if_neg hskip, if_true, subPatterns_getD]

/-- The registry updates of `ChangeSubscription` touch, up to the order
induced by the shard distribution, exactly the gathered (effectively
changed) channels. -/
theorem changeSubscription_regOps_perm (shardOf : String → Nat) (nshards : Nat)
    (toAdd toReply : Bool) (args : List String) (c : ConnCtx)
    (hsh : ∀ ch, shardOf ch < nshards) :
    ((changeSubscription shardOf nshards toAdd toReply args c).2.2.map SubOp.name).Perm
      (subLoop toAdd (subChannels c) args).2.2 := by
  by_cases hskip : toAdd = false ∧ c.subscribeInfo = none
  · obtain ⟨rfl, hnone⟩ := hskip
    have hch : subChannels c = [] := by
      unfold subChannels
      rw [hnone]
    rw [hch, subLoop_remove_nil]
    simp [changeSubscription, hnone]
  · have hops : (changeSubscription shardOf nshards toAdd toReply args c).2.2 =
        distributeOps nshards toAdd
          (List.insertionSort pairLt
            ((subLoop toAdd (subChannels c) args).2.2.map (fun ch => (shardOf ch, ch)))) := by
      simp only [changeSubscription, if_neg hskip, subChannels_getD]
    rw [hops]
    set vec := (subLoop toAdd (subChannels c) args).2.2.map
      (fun ch => (shardOf ch, ch)) with hvec
    have hlt : ∀ p ∈ List.insertionSort pairLt vec, p.1 < nshards := by
      intro p hp
      have hpv : p ∈ vec := (List.perm_insertionSort pairLt vec).mem_iff.mp hp
      rw [hvec, List.mem_map] at hpv
      obtain ⟨ch, _, rfl⟩ := hpv
      exact hsh ch
    rw [distributeOps_names nshards toAdd _ (insertionSort_pairwise_fst vec) hlt]
    have hperm := (List.perm_insertionSort pairLt vec).map Prod.snd
    refine hperm.trans ?_
    rw [hvec, List.map_map]
    have : (Prod.snd ∘ fun ch => (shardOf ch, ch)) = id := rfl
    rw [this, List.map_id]

/-- The registry updates of `ChangePSub`: every shard receives every
gathered pattern once. -/
theorem changePSub_regOps (nshards : Nat) (toAdd toReply : Bool)
    (args : List String) (c : ConnCtx) :
    (changePSub nshards toAdd toReply args c).2.2 =
      (List.range nshards).flatMap
        (fun sid => (subLoop toAdd (subPatterns c) args).2.2.map
          (fun pat => ⟨toAdd, sid, pat⟩)) := by
  by_cases hskip : toAdd = false ∧ c.subscribeInfo = none
  · obtain ⟨rfl, hnone⟩ := hskip
    have hch : subPatterns c = [] := by
      unfold subPatterns
      rw [hnone]
    rw [hch, subLoop_remove_nil]
    simp [changePSub, hnone]
  · simp only [changePSub, if_neg hskip, subPatterns_getD]

theorem filter_sid_flatMap_ge (n sid0 : Nat) (toAdd : Bool) (ch : List String)
    (hge : n ≤ sid0) :
    ((List.range n).flatMap
        (fun sid => ch.map (fun pat => (⟨toAdd, sid, pat⟩ : SubOp)))).filter
      (fun o => o.sid == sid0) = [] := by
  induction n with
  | zero => rfl
  | succ n ih =>
      rw [List.range_succ, List.flatMap_append, List.filter_append,
        ih (by omega)]
      simp only [List.nil_append, List.flatMap_cons, List.flatMap_nil,
        List.append_nil]
      rw [List.filter_eq_nil_iff]
      intro o ho
      rw [List.mem_map] at ho
      obtain ⟨pat, _, rfl⟩ := ho
      simp
      omega

theorem filter_sid_flatMap (n sid0 : Nat) (toAdd : Bool) (ch : List String)
    (h : sid0 < n) :
    ((List.range n).flatMap
        (fun sid => ch.map (fun pat => (⟨toAdd, sid, pat⟩ : SubOp)))).filter
      (fun o => o.sid == sid0) =
      ch.map (fun pat => ⟨toAdd, sid0, pat⟩) := by
  induction n with
  | zero => omega
  | succ n ih =>
      rw [List.range_succ, List.flatMap_append, List.filter_append]
      simp only [List.flatMap_cons, List.flatMap_nil, List.append_nil]
      by_cases hn : sid0 < n
      · rw [ih hn]
        have : (ch.map (fun pat => (⟨toAdd, n, pat⟩ : SubOp))).filter
            (fun o => o.sid == sid0) = [] := by
          rw [List.filter_eq_nil_iff]
          intro o ho
          rw [List.mem_map] at ho
          obtain ⟨pat, _, rfl⟩ := ho
          simp
          omega
        rw [this, List.append_nil]
      · have hsid : sid0 = n := by omega
        subst hsid
        rw [filter_sid_flatMap_ge _ _ _ _ (le_refl _), List.nil_append]
        rw [List.filter_eq_self]
        intro o ho
        rw [List.mem_map] at ho
        obtain ⟨pat, _, rfl⟩ := ho
        simp

/-- All registry updates of `ChangeSubscription` carry its add/remove
direction. -/
theorem changeSubscription_regOps_toAdd (shardOf : String → Nat) (nshards : Nat)
    (toAdd toReply : Bool) (args : List String) (c : ConnCtx) :
    ∀ op ∈ (changeSubscription shardOf nshards toAdd toReply args c).2.2,
      op.toAdd = toAdd := by
  by_cases hskip : toAdd = false ∧ c.subscribeInfo = none
  · obtain ⟨rfl, hnone⟩ := hskip
    simp [changeSubscription, hnone]
  · have hops : (changeSubscription shardOf nshards toAdd toReply args c).2.2 =
        distributeOps nshards toAdd
          (List.insertionSort pairLt
            ((subLoop toAdd (subChannels c) args).2.2.map (fun ch => (shardOf ch, ch)))) := by
      simp only [changeSubscription, if_neg hskip, subChannels_getD]
    rw [hops]
    exact distributeOps_toAdd _ _ _

/-- C4.  `ChangeSubscription`/`ChangePSub` with `to_reply`: exactly one
acknowledgement per argument, in input order; the i-th acknowledgement
is the triple of the action name, the i-th argument and the channel
(resp. pattern) count of the connection right after processing that
argument; an argument that duplicates an earlier one leaves the set —
hence the count — unchanged; and each channel is inserted into/removed
from the shard registry at most once (for patterns: at most once per
shard), exactly for the arguments that changed the connection-local
set. -/
theorem c4_subscription_replies
    (shardOf : String → Nat) (nshards : Nat) (toAdd : Bool)
    (args : List String) (c : ConnCtx)
    (hndc : (subChannels c).Nodup) (hndp : (subPatterns c).Nodup)
    (hsh : ∀ ch, shardOf ch < nshards) :
    (changeSubscription shardOf nshards toAdd true args c).2.1.length = args.length ∧
    (∀ (i : Nat) (x : String), args[i]? = some x →
      (changeSubscription shardOf nshards toAdd true args c).2.1[i]? =
        some ⟨if toAdd then "subscribe" else "unsubscribe", x,
              (chansAfter toAdd c args (i + 1)).length⟩) ∧
    (∀ (i j : Nat) (x : String), i < j → args[i]? = some x → args[j]? = some x →
      chansAfter toAdd c args (j + 1) = chansAfter toAdd c args j) ∧
    ((changeSubscription shardOf nshards toAdd true args c).2.2.map SubOp.name).Nodup ∧
    (∀ x, x ∈ (changeSubscription shardOf nshards toAdd true args c).2.2.map SubOp.name ↔
      (x ∈ args ∧ (if toAdd = true then x ∉ subChannels c else x ∈ subChannels c))) ∧
    (∀ op ∈ (changeSubscription shardOf nshards toAdd true args c).2.2,
      op.toAdd = toAdd) ∧
    (changePSub nshards toAdd true args c).2.1.length = args.length ∧
    (∀ (i : Nat) (x : String), args[i]? = some x →
      (changePSub nshards toAdd true args c).2.1[i]? =
        some ⟨if toAdd then "psubscribe" else "punsubscribe", x,
              (patsAfter toAdd c args (i + 1)).length⟩) ∧
    (∀ (i j : Nat) (x : String), i < j → args[i]? = some x → args[j]? = some x →
      patsAfter toAdd c args (j + 1) = patsAfter toAdd c args j) ∧
    (∀ sid, sid < nshards →
      (((changePSub nshards toAdd true args c).2.2.filter
          (fun o => o.sid == sid)).map SubOp.name).Nodup) := by
  refine ⟨?_, ?_, ?_, ?_, ?_, ?_, ?_, ?_, ?_, ?_⟩
  · rw [changeSubscription_acks]
    simp [List.length_zip, subLoop_counts_length]
  · intro i x hx
    have hi : i < args.length := by
      obtain ⟨h, _⟩ := List.getElem?_eq_some.mp hx
      exact h
    rw [changeSubscription_acks, List.getElem?_map]
    have hzip : (args.zip (subLoop toAdd (subChannels c) args).2.1)[i]? =
        some (x, (chansAfter toAdd c args (i + 1)).length) := by
      rw [List.getElem?_zip_eq_some]
      exact ⟨hx, subLoop_counts_get toAdd _ args i hi⟩
    rw [hzip]
    rfl
  · intro i j x hij hxi hxj
    exact subLoop_take_duplicate toAdd _ args i j x hij hxi hxj hndc
  · rw [(changeSubscription_regOps_perm shardOf nshards toAdd true args c hsh).nodup_iff]
    exact subLoop_changed_nodup toAdd _ args hndc
  · intro x
    rw [(changeSubscription_regOps_perm shardOf nshards toAdd true args c hsh).mem_iff]
    cases toAdd
    · rw [subLoop_changed_mem_remove]
      simp
    · rw [subLoop_changed_mem_add]
      simp
  · exact changeSubscription_regOps_toAdd shardOf nshards toAdd true args c
  · rw [changePSub_acks]
    simp [List.length_zip, subLoop_counts_length]
  · intro i x hx
    have hi : i < args.length := by
      obtain ⟨h, _⟩ := List.getElem?_eq_some.mp hx
      exact h
    rw [changePSub_acks, List.getElem?_map]
    have hzip : (args.zip (subLoop toAdd (subPatterns c) args).2.1)[i]? =
        some (x, (patsAfter toAdd c args (i + 1)).length) := by
      rw [List.getElem?_zip_eq_some]
      exact ⟨hx, subLoop_counts_get toAdd _ args i hi⟩
    rw [hzip]
    rfl
  · intro i j x hij hxi hxj
    exact subLoop_take_duplicate toAdd _ args i j x hij hxi hxj hndp
  · intro sid hsid
    rw [changePSub_regOps, filter_sid_flatMap nshards sid toAdd _ hsid,
      List.map_map]
    have : (SubOp.name ∘ fun pat => (⟨toAdd, sid, pat⟩ : SubOp)) = id := rfl
    rw [this, List.map_id]
    exact subLoop_changed_nodup toAdd _ args hndp

/-- Witness for C4: a fresh connection subscribing to channels
c1, c2, c1 (one duplicate) on a 2-shard set, via a concrete shard map. -/
theorem c4_witness :
    (changeSubscription (fun ch => if ch = "c1" then 0 else 1) 2 true true
        ["c1", "c2", "c1"] ⟨none, false⟩).2.1.length = 3 ∧
    chansAfter true ⟨none, false⟩ ["c1", "c2", "c1"] 3 =
      chansAfter true ⟨none, false⟩ ["c1", "c2", "c1"] 2 ∧
    ((changeSubscription (fun ch => if ch = "c1" then 0 else 1) 2 true true
        ["c1", "c2", "c1"] ⟨none, false⟩).2.2.map SubOp.name).Nodup := by
  have h := c4_subscription_replies (fun ch => if ch = "c1" then 0 else 1) 2 true
    ["c1", "c2", "c1"] ⟨none, false⟩ (by constructor) (by constructor)
    (fun ch => by by_cases hc : ch = "c1" <;> simp [hc])
  exact ⟨h.1, h.2.2.1 0 2 "c1" (by omega) rfl rfl, h.2.2.2.1⟩

/-! ## Connection close and pub/sub drain (claim C3)

`ConnectionContext::OnClose` (conn_context.cc lines 178-208). -/

/-- The close-path state: the connection context plus the value of the
`borrow_token` blocking counter (outstanding publisher borrows). -/
structure CloseState where
  ctx : ConnCtx
  borrow : Nat
  deriving DecidableEq, Repr

/-- `ConnectionContext::OnClose`: for a non-empty channel set, issue a
synthetic unsubscribe-all (`ChangeSubscription(false, false, ...)`) and
wait on the borrow token; if a `SubscribeInfo` still exists, issue a
synthetic punsubscribe-all (`ChangePSub(false, false, ...)`) and wait
again.  `BlockingCounter::Wait` returns only once the counter reached
zero; the model records the state at its return (`borrow := 0`).
Returns the final state and the registry updates performed. -/
def onClose (shardOf : String → Nat) (nshards : Nat) (s : CloseState) :
    CloseState × List SubOp :=
  match s.ctx.subscribeInfo with
  | none => (s, [])
  | some si =>
      let step1 : CloseState × List SubOp :=
        if si.channels.isEmpty then (s, [])
        else
          let r := changeSubscription shardOf nshards false false si.channels s.ctx
          (⟨r.1, 0⟩, r.2.2)          -- token.Wait()
      match step1.1.ctx.subscribeInfo with
      | none => step1
      | some si1 =>
          let r := changePSub nshards false false si1.patterns step1.1.ctx
          (⟨r.1, 0⟩, step1.2 ++ r.2.2)  -- token.Wait()

theorem subLoop_remove_self (l : List String) :
    (subLoop false l l).1 = [] ∧ (subLoop false l l).2.2 = l := by
  induction l with
  | nil => exact ⟨rfl, rfl⟩
  | cons a r ih =>
      have hst : subStep false (a :: r) a = (r, true) := by
        simp [subStep, List.erase_cons_head]
      constructor <;> simp [subLoop, hst, ih.1, ih.2]

/-- The connection state after the unsubscribe-all of the close path. -/
theorem changeSubscription_close (shardOf : String → Nat) (nshards : Nat)
    (c : ConnCtx) (si : SubscribeInfo) (h : c.subscribeInfo = some si) :
    (changeSubscription shardOf nshards false false si.channels c).1 =
      (if si.patterns.isEmpty then (⟨none, false⟩ : ConnCtx)
       else ⟨some ⟨[], si.patterns⟩, c.forceDispatch⟩) := by
  by_cases hp : si.patterns.isEmpty <;>
    simp [changeSubscription, h, (subLoop_remove_self si.channels).1,
      SubscribeInfo.IsEmpty, hp]

/-- The connection state after the punsubscribe-all of the close path. -/
theorem changePSub_close (nshards : Nat)
    (c : ConnCtx) (si : SubscribeInfo) (h : c.subscribeInfo = some si) :
    (changePSub nshards false false si.patterns c).1 =
      (if si.channels.isEmpty then (⟨none, false⟩ : ConnCtx)
       else ⟨some ⟨si.channels, []⟩, c.forceDispatch⟩) := by
  by_cases hp : si.channels.isEmpty <;>
    simp [changePSub, h, (subLoop_remove_self si.patterns).1,
      SubscribeInfo.IsEmpty, hp]

/-- The registry removals of the synthetic channel unsubscribe-all
cover exactly the subscribed channels. -/
theorem changeSubscription_close_ops (shardOf : String → Nat) (nshards : Nat)
    (c : ConnCtx) (si : SubscribeInfo) (h : c.subscribeInfo = some si)
    (hsh : ∀ ch, shardOf ch < nshards) :
    ((changeSubscription shardOf nshards false false si.channels c).2.2.map
      SubOp.name).Perm si.channels := by
  have hch : subChannels c = si.channels := by
    unfold subChannels
    rw [h]
  have hperm := changeSubscription_regOps_perm shardOf nshards false false
    si.channels c hsh
  rw [hch, (subLoop_remove_self si.channels).2] at hperm
  exact hperm

/-- The registry removals of the synthetic pattern unsubscribe-all:
every shard removes every subscribed pattern. -/
theorem changePSub_close_ops (nshards : Nat)
    (c : ConnCtx) (si : SubscribeInfo) (h : c.subscribeInfo = some si) :
    (changePSub nshards false false si.patterns c).2.2 =
      (List.range nshards).flatMap
        (fun sid => si.patterns.map (fun pat => ⟨false, sid, pat⟩)) := by
  have hch : subPatterns c = si.patterns := by
    unfold subPatterns
    rw [h]
  rw [changePSub_regOps, hch, (subLoop_remove_self si.patterns).2]

/-- C3.  For a connection holding a subscription record at close, the
close path issues synthetic unsubscribe (removal) operations covering
all of its channels and, on every shard, all of its patterns, waiting
on the borrow token after each batch; when it returns, the subscription
record is gone, `force_dispatch` is cleared, and the borrow token is 0
— no publisher still holds a reference to the connection. -/
theorem c3_onclose_drains (shardOf : String → Nat) (nshards : Nat)
    (s : CloseState) (si : SubscribeInfo)
    (h : s.ctx.subscribeInfo = some si)
    (hsh : ∀ ch, shardOf ch < nshards) (hns : 0 < nshards) :
    (onClose shardOf nshards s).1.ctx.subscribeInfo = none ∧
    (onClose shardOf nshards s).1.borrow = 0 ∧
    (onClose shardOf nshards s).1.ctx.forceDispatch = false ∧
    (∀ op ∈ (onClose shardOf nshards s).2, op.toAdd = false) ∧
    (∀ ch ∈ si.channels, ∃ op ∈ (onClose shardOf nshards s).2, op.name = ch) ∧
    (∀ pat ∈ si.patterns, ∃ op ∈ (onClose shardOf nshards s).2, op.name = pat) := by
  by_cases hce : si.channels.isEmpty
  · -- no channels: only the pattern unsubscribe-all runs
    have hchnil : si.channels = [] := List.isEmpty_iff.mp hce
    have hA : onClose shardOf nshards s =
        (⟨(changePSub nshards false false si.patterns s.ctx).1, 0⟩,
         (changePSub nshards false false si.patterns s.ctx).2.2) := by
      unfold onClose
      rw [h]
      simp [hce, h]
    rw [hA, changePSub_close nshards s.ctx si h, if_pos hce,
      changePSub_close_ops nshards s.ctx si h]
    refine ⟨rfl, rfl, rfl, ?_, ?_, ?_⟩
    · intro op hop
      rw [List.mem_flatMap] at hop
      obtain ⟨sid, -, hmem⟩ := hop
      rw [List.mem_map] at hmem
      obtain ⟨pat, -, rfl⟩ := hmem
      rfl
    · intro ch hch
      rw [hchnil] at hch
      simp at hch
    · intro pat hpat
      refine ⟨⟨false, 0, pat⟩, ?_, rfl⟩
      rw [List.mem_flatMap]
      exact ⟨0, List.mem_range.mpr hns, List.mem_map.mpr ⟨pat, hpat, rfl⟩⟩
  · -- channels first, then (if patterns remain) patterns
    have hctx1 := changeSubscription_close shardOf nshards s.ctx si h
    have hops1 := changeSubscription_close_ops shardOf nshards s.ctx si h hsh
    have htag1 := changeSubscription_regOps_toAdd shardOf nshards false false
      si.channels s.ctx
    by_cases hpe : si.patterns.isEmpty
    · have hpnil : si.patterns = [] := List.isEmpty_iff.mp hpe
      have hB : onClose shardOf nshards s =
          (⟨(changeSubscription shardOf nshards false false si.channels s.ctx).1, 0⟩,
           (changeSubscription shardOf nshards false false si.channels s.ctx).2.2) := by
        unfold onClose
        rw [h]
        simp only [hce, if_false, Bool.false_eq_true]
        rw [hctx1, if_pos hpe]
      rw [hB, hctx1, if_pos hpe]
      refine ⟨rfl, rfl, rfl, htag1, ?_, ?_⟩
      · intro ch hch
        have : ch ∈ (changeSubscription shardOf nshards false false
            si.channels s.ctx).2.2.map SubOp.name := hops1.mem_iff.mpr hch
        rw [List.mem_map] at this
        obtain ⟨op, hop, rfl⟩ := this
        exact ⟨op, hop, rfl⟩
      · intro pat hpat
        rw [hpnil] at hpat
        simp at hpat
    · -- both sets non-empty
      set c1 : ConnCtx := ⟨some ⟨[], si.patterns⟩, s.ctx.forceDispatch⟩ with hc1
      have hctx1e : (changeSubscription shardOf nshards false false
          si.channels s.ctx).1 = c1 := by
        rw [hctx1, if_neg hpe]
      have hC : onClose shardOf nshards s =
          (⟨(changePSub nshards false false si.patterns c1).1, 0⟩,
           (changeSubscription shardOf nshards false false si.channels s.ctx).2.2 ++
             (changePSub nshards false false si.patterns c1).2.2) := by
        unfold onClose
        rw [h]
        simp only [hce, if_false, Bool.false_eq_true]
        rw [hctx1e]
      have hc1i : c1.subscribeInfo = some ⟨[], si.patterns⟩ := rfl
      have hctx2 := changePSub_close nshards c1 ⟨[], si.patterns⟩ hc1i
      rw [if_pos (by simp)] at hctx2
      have hops2 := changePSub_close_ops nshards c1 ⟨[], si.patterns⟩ hc1i
      rw [hC, hctx2, hops2]
      refine ⟨rfl, rfl, rfl, ?_, ?_, ?_⟩
      · intro op hop
        rcases List.mem_append.mp hop with hop | hop
        · exact htag1 op hop
        · rw [List.mem_flatMap] at hop
          obtain ⟨sid, -, hmem⟩ := hop
          rw [List.mem_map] at hmem
          obtain ⟨pat, -, rfl⟩ := hmem
          rfl
      · intro ch hch
        have : ch ∈ (changeSubscription shardOf nshards false false
            si.channels s.ctx).2.2.map SubOp.name := hops1.mem_iff.mpr hch
        rw [List.mem_map] at this
        obtain ⟨op, hop, rfl⟩ := this
        exact ⟨op, List.mem_append_left _ hop, rfl⟩
      · intro pat hpat
        refine ⟨⟨false, 0, pat⟩, List.mem_append_right _ ?_, rfl⟩
        rw [List.mem_flatMap]
        exact ⟨0, List.mem_range.mpr hns, List.mem_map.mpr ⟨pat, hpat, rfl⟩⟩

/-- Witness for C3: a connection subscribed to channel "c1" and
pattern "p*" on one shard is fully drained by the close path. -/
theorem c3_witness :
    (onClose (fun _ => 0) 1 ⟨⟨some ⟨["c1"], ["p*"]⟩, true⟩, 2⟩).1.ctx.subscribeInfo = none ∧
    (onClose (fun _ => 0) 1 ⟨⟨some ⟨["c1"], ["p*"]⟩, true⟩, 2⟩).1.borrow = 0 ∧
    (onClose (fun _ => 0) 1 ⟨⟨some ⟨["c1"], ["p*"]⟩, true⟩, 2⟩).1.ctx.forceDispatch = false := by
  have h := c3_onclose_drains (fun _ => 0) 1 ⟨⟨some ⟨["c1"], ["p*"]⟩, true⟩, 2⟩
    ⟨["c1"], ["p*"]⟩ rfl (fun ch => by norm_num) (by omega)
  exact ⟨h.1, h.2.1, h.2.2.1⟩

/-! ## Stable hash scanning of StringSet (claim C6)

`string_set.h` documents `StringSet::Scan` (lines 138-150) but its body
is not among the sources (the declaration itself is commented out).
Modelled from the spec: the cursor is an opaque 32-bit token holding
the current bucket index in its high bits (high-bit-first order); a
call scans, at the current table log-size `L`, the bucket addressed by
the top `L` bits of the cursor — that bucket logically holds the
elements whose hash has those top `L` bits — and returns the following
cursor, or 0 when that bucket was the last.  Between calls the table
may grow or shrink (the log-size changes) and elements may come and
go.  An element is identified with the top 32 bits of its 64-bit hash,
which determine its bucket for every L ≤ 32. -/

def scanW : Nat := 32

/-- The bucket of a 32-bit hash value at table log-size `L`: its top
`L` bits. -/
def hashBucket (L h : Nat) : Nat := h / 2 ^ (scanW - L)

/-- Modelled from the spec: the cursor `Scan` returns — the next bucket
index in high-bit-first presentation, or 0 after the last bucket. -/
def scanStep (L c : Nat) : Nat :=
  if hashBucket L c + 1 = 2 ^ L then 0
  else (hashBucket L c + 1) * 2 ^ (scanW - L)

/-- One `Scan` call of a scan sequence: the table log-size at the time
of the call and the element hashes present in the set at that moment. -/
structure ScanFrame where
  L : Nat
  elems : List Nat
  deriving DecidableEq, Repr

/-- The cursor handed to each successive call, starting from `c`. -/
def scanCursors : List ScanFrame → Nat → List (ScanFrame × Nat)
  | [], _ => []
  | f :: fs, c => (f, c) :: scanCursors fs (scanStep f.L c)

/-- The cursor returned by the last call. -/
def scanFinal : List ScanFrame → Nat → Nat
  | [], c => c
  | f :: fs, c => scanFinal fs (scanStep f.L c)

/-- A complete scan sequence: started with cursor 0, at least one call,
all table sizes valid, continued exactly until a call returned 0. -/
def IsCompleteRun (fs : List ScanFrame) : Prop :=
  fs ≠ [] ∧ (∀ fr ∈ fs, fr.L ≤ scanW) ∧
  scanFinal fs 0 = 0 ∧
  ∀ p ∈ (scanCursors fs 0).tail, p.2 ≠ 0

instance (fs : List ScanFrame) : Decidable (IsCompleteRun fs) := by
  unfold IsCompleteRun; infer_instance

/-- Whether one call emits the element with hash `h`: the element is
present and its bucket is the one the cursor addresses. -/
def emitsAt (p : ScanFrame × Nat) (h : Nat) : Bool :=
  decide (h ∈ p.1.elems) && (hashBucket p.1.L h == hashBucket p.1.L p.2)

/-- The number of calls after cursor `c0` that emit hash `h`. -/
def emitCountFrom (fs : List ScanFrame) (c0 h : Nat) : Nat :=
  (scanCursors fs c0).countP (fun p => emitsAt p h)

/-- The number of calls of the whole sequence that emit hash `h`. -/
def emitCount (fs : List ScanFrame) (h : Nat) : Nat :=
  emitCountFrom fs 0 h

/-- C6.  The claim asserts exactly-once emission across a scan even if
the table shrinks mid-scan.  The modelled algorithm refutes the shrink
case: with 4 buckets, an element of bucket 2 (hash `0x80000000`) is
emitted by the third call; after the table halves, the final call scans
the one-bit bucket 1, which covers hashes `10...` and `11...`, and
emits the same element a second time: a complete run with the element
present throughout emits it twice. -/
theorem c6_counterexample :
    IsCompleteRun
      [⟨2, [2147483648]⟩, ⟨2, [2147483648]⟩, ⟨2, [2147483648]⟩,
       ⟨1, [2147483648]⟩] ∧
    (∀ fr ∈ [(⟨2, [2147483648]⟩ : ScanFrame), ⟨2, [2147483648]⟩,
        ⟨2, [2147483648]⟩, ⟨1, [2147483648]⟩], 2147483648 ∈ fr.elems) ∧
    emitCount
      [⟨2, [2147483648]⟩, ⟨2, [2147483648]⟩, ⟨2, [2147483648]⟩,
       ⟨1, [2147483648]⟩] 2147483648 = 2 := by
  refine ⟨by decide, by decide, by decide⟩

theorem div_eq_iff_of_pos (t h b : Nat) (ht : 0 < t) :
    h / t = b ↔ (b * t ≤ h ∧ h < (b + 1) * t) := by
  constructor
  · rintro rfl
    exact ⟨Nat.div_mul_le_self h t,
      (Nat.div_lt_iff_lt_mul ht).mp (Nat.lt_succ_self (h / t))⟩
  · rintro ⟨h1, h2⟩
    have ha : b ≤ h / t := (Nat.le_div_iff_mul_le ht).mpr h1
    have hb : h / t < b + 1 := (Nat.div_lt_iff_lt_mul ht).mpr h2
    omega

/-- Every element present throughout a scan whose hash lies at or above
the current cursor is emitted at least once before the scan ends —
regardless of how the table is resized between calls. -/
theorem scanCover (fs : List ScanFrame) (c0 h : Nat)
    (hfs : fs ≠ []) (hL : ∀ fr ∈ fs, fr.L ≤ scanW)
    (hmem : ∀ fr ∈ fs, h ∈ fr.elems)
    (hfinal : scanFinal fs c0 = 0) (hh : h < 2 ^ scanW) (hc : c0 ≤ h) :
    1 ≤ emitCountFrom fs c0 h := by
  induction fs generalizing c0 with
  | nil => exact absurd rfl hfs
  | cons f fs ih =>
      have hpow : 0 < 2 ^ (scanW - f.L) := Nat.pow_pos (by norm_num)
      unfold emitCountFrom scanCursors
      rw [List.countP_cons]
      by_cases hemit : hashBucket f.L h = hashBucket f.L c0
      · have hp : emitsAt (f, c0) h = true := by
          unfold emitsAt
          simp [hmem f (by simp), hemit]
        rw [hp]
        simp
      · -- the element lies beyond the bucket scanned by this call
        have hb_le : hashBucket f.L c0 ≤ h / 2 ^ (scanW - f.L) :=
          Nat.div_le_div_right hc
        have hge : hashBucket f.L c0 + 1 ≤ h / 2 ^ (scanW - f.L) := by
          have : h / 2 ^ (scanW - f.L) ≠ hashBucket f.L c0 := hemit
          omega
        have hge2 : (hashBucket f.L c0 + 1) * 2 ^ (scanW - f.L) ≤ h :=
          (Nat.le_div_iff_mul_le hpow).mp hge
        by_cases hstep0 : hashBucket f.L c0 + 1 = 2 ^ f.L
        · exfalso
          have hLle : f.L ≤ scanW := hL f (by simp)
          have hfull : (hashBucket f.L c0 + 1) * 2 ^ (scanW - f.L) = 2 ^ scanW := by
            rw [hstep0, ← pow_add]
            congr 1
            omega
          rw [hfull] at hge2
          omega
        · have hstep : scanStep f.L c0 =
              (hashBucket f.L c0 + 1) * 2 ^ (scanW - f.L) := by
            unfold scanStep
            rw [if_neg hstep0]
          have hfs2 : fs ≠ [] := by
            rintro rfl
            simp only [scanFinal, hstep] at hfinal
            have hpos : 0 < (hashBucket f.L c0 + 1) * 2 ^ (scanW - f.L) :=
              Nat.mul_pos (Nat.succ_pos _) hpow
            omega
          have hrec := ih (scanStep f.L c0) hfs2
            (fun fr hfr => hL fr (List.mem_cons_of_mem f hfr))
            (fun fr hfr => hmem fr (List.mem_cons_of_mem f hfr))
            hfinal (by rw [hstep]; exact hge2)
          unfold emitCountFrom at hrec
          omega

/-- As long as the table only grows between calls, an element present
throughout is emitted exactly once after the cursor passes it (and
never if the scan starts beyond it). -/
theorem scanExact (fs : List ScanFrame) (c0 h : Nat)
    (hL : ∀ fr ∈ fs, fr.L ≤ scanW)
    (hmem : ∀ fr ∈ fs, h ∈ fr.elems)
    (hfinal : scanFinal fs c0 = 0) (hh : h < 2 ^ scanW)
    (hfs : fs ≠ [])
    (htail : ∀ p ∈ (scanCursors fs c0).tail, p.2 ≠ 0)
    (hchain : List.Chain' (· ≤ ·) (fs.map ScanFrame.L))
    (hdvd : ∀ f ∈ fs.head?, 2 ^ (scanW - f.L) ∣ c0) :
    emitCountFrom fs c0 h = if c0 ≤ h then 1 else 0 := by
  induction fs generalizing c0 with
  | nil => exact absurd rfl hfs
  | cons f fs ih =>
      have hpow : 0 < 2 ^ (scanW - f.L) := Nat.pow_pos (by norm_num)
      have hLle : f.L ≤ scanW := hL f (by simp)
      have halign : hashBucket f.L c0 * 2 ^ (scanW - f.L) = c0 := by
        unfold hashBucket
        exact Nat.div_mul_cancel (hdvd f rfl)
      -- this call emits h exactly when c0 ≤ h < c0 + 2^(scanW - f.L)
      have hemit_iff : hashBucket f.L h = hashBucket f.L c0 ↔
          (c0 ≤ h ∧ h < c0 + 2 ^ (scanW - f.L)) := by
        unfold hashBucket
        rw [div_eq_iff_of_pos _ _ _ hpow]
        constructor
        · rintro ⟨h1, h2⟩
          rw [Nat.add_mul, one_mul] at h2
          unfold hashBucket at halign
          omega
        · rintro ⟨h1, h2⟩
          rw [Nat.add_mul, one_mul]
          unfold hashBucket at halign
          omega
      unfold emitCountFrom scanCursors
      rw [List.countP_cons]
      by_cases hstep0 : hashBucket f.L c0 + 1 = 2 ^ f.L
      · -- this call returns 0: it must be the last of the run
        have hstep : scanStep f.L c0 = 0 := by
          unfold scanStep
          rw [if_pos hstep0]
        have hend : c0 + 2 ^ (scanW - f.L) = 2 ^ scanW := by
          have : (hashBucket f.L c0 + 1) * 2 ^ (scanW - f.L) = 2 ^ scanW := by
            rw [hstep0, ← pow_add]
            congr 1
            omega
          rw [Nat.add_mul, one_mul, halign] at this
          exact this
        have hfs2 : fs = [] := by
          cases fs with
          | nil => rfl
          | cons g gs =>
              exfalso
              refine htail (g, scanStep f.L c0) ?_ (by rw [hstep])
              unfold scanCursors
              simp [scanCursors]
        subst hfs2
        simp only [scanCursors, List.countP_nil, Nat.zero_add]
        by_cases hch : c0 ≤ h
        · have hp : emitsAt (f, c0) h = true := by
            unfold emitsAt
            simp [hmem f (by simp)]
            exact hemit_iff.mpr ⟨hch, by omega⟩
          rw [hp]
          simp [hch]
        · have hp : emitsAt (f, c0) h = false := by
            unfold emitsAt
            rw [Bool.and_eq_false_iff]
            right
            simp only [beq_eq_false_iff_ne, ne_eq]
            rw [hemit_iff]
            omega
          rw [hp]
          simp [hch]
      · -- the run continues at cursor c0 + 2^(scanW - f.L)
        have hstep : scanStep f.L c0 = c0 + 2 ^ (scanW - f.L) := by
          unfold scanStep
          rw [if_neg hstep0, Nat.add_mul, one_mul, halign]
        have hfs2 : fs ≠ [] := by
          rintro rfl
          simp only [scanFinal, hstep] at hfinal
          omega
        obtain ⟨g, gs, rfl⟩ := List.exists_cons_of_ne_nil hfs2
        have hLfg : f.L ≤ g.L := by
          simp only [List.map_cons, List.chain'_cons] at hchain
          exact hchain.1
        have hrec := ih (scanStep f.L c0)
          (fun fr hfr => hL fr (List.mem_cons_of_mem f hfr))
          (fun fr hfr => hmem fr (List.mem_cons_of_mem f hfr))
          hfinal (by simp)
          (fun p hp => htail p (by
            unfold scanCursors
            simp only [List.tail_cons]
            exact List.mem_of_mem_tail hp))
          (by
            simp only [List.map_cons, List.chain'_cons] at hchain ⊢
            exact hchain.2)
          (by
            intro fr hfr
            simp only [List.head?_cons, Option.mem_def, Option.some.injEq] at hfr
            subst hfr
            rw [hstep]
            refine Nat.dvd_add ?_ ?_
            · exact dvd_trans (pow_dvd_pow 2 (by omega)) (hdvd f rfl)
            · exact pow_dvd_pow 2 (by omega))
        unfold emitCountFrom at hrec
        rw [hrec, hstep]
        by_cases hch : c0 ≤ h
        · by_cases hlt : h < c0 + 2 ^ (scanW - f.L)
          · have hp : emitsAt (f, c0) h = true := by
              unfold emitsAt
              simp [hmem f (by simp)]
              exact hemit_iff.mpr ⟨hch, hlt⟩
            rw [hp, if_neg (by omega), if_pos hch]
            simp
          · have hp : emitsAt (f, c0) h = false := by
              unfold emitsAt
              rw [Bool.and_eq_false_iff]
              right
              simp only [beq_eq_false_iff_ne, ne_eq]
              rw [hemit_iff]
              omega
            rw [hp, if_pos (by omega), if_pos hch]
            simp
        · have hp : emitsAt (f, c0) h = false := by
            unfold emitsAt
            rw [Bool.and_eq_false_iff]
            right
            simp only [beq_eq_false_iff_ne, ne_eq]
            rw [hemit_iff]
            omega
          rw [hp, if_neg (by omega), if_neg hch]
          simp

/-- C6 (amended).  Across a complete scan sequence (started at cursor
0, continued with each returned cursor until 0), every element present
in the set from start to end is emitted at least once, whatever
sequence of grows and shrinks happens in between; and when the table
never shrinks during the scan, such an element is emitted exactly once
(no element twice).  A shrink mid-scan may cause an element to be
emitted a second time. -/
theorem c6_amended (fs : List ScanFrame) (h : Nat)
    (hrun : IsCompleteRun fs) (hh : h < 2 ^ scanW)
    (hmem : ∀ fr ∈ fs, h ∈ fr.elems) :
    1 ≤ emitCount fs h ∧
    (List.Chain' (· ≤ ·) (fs.map ScanFrame.L) → emitCount fs h = 1) := by
  obtain ⟨hfs, hL, hfinal, htail⟩ := hrun
  constructor
  · exact scanCover fs 0 h hfs hL hmem hfinal hh (Nat.zero_le h)
  · intro hchain
    have hx := scanExact fs 0 h hL hmem hfinal hh hfs htail hchain
      (fun f hf => dvd_zero _)
    rw [emitCount, hx, if_pos (Nat.zero_le h)]

/-- Witness for C6 (amended): a scan of a table that grows from 2 to 4
buckets mid-scan emits the always-present element of hash 5 exactly
once. -/
theorem c6_amended_witness :
    1 ≤ emitCount [⟨1, [5]⟩, ⟨2, [5]⟩, ⟨2, [5]⟩] 5 ∧
    emitCount [⟨1, [5]⟩, ⟨2, [5]⟩, ⟨2, [5]⟩] 5 = 1 := by
  have hc := c6_amended [⟨1, [5]⟩, ⟨2, [5]⟩, ⟨2, [5]⟩] 5 (by decide) (by decide)
    (by decide)
  have hchain : List.Chain' (fun x1 x2 => x1 ≤ x2)
      (List.map ScanFrame.L
        [(⟨1, [5]⟩ : ScanFrame), ⟨2, [5]⟩, ⟨2, [5]⟩]) := by
    simp [List.chain'_cons]
  exact ⟨hc.1, hc.2 hchain⟩

/-! ## StringSet slot accounting (claim C7)

`string_set.h` defines the tagged-slot layout (`SuperPtr` with its LINK
and DISPLACED bits, `LinkKey` chain nodes, `static_assert
sizeof(SuperPtr) == 8`), the tracked counter `num_chain_entries_`
(decremented by `Free`, lines 259-262) and the accessor
`set_malloc_used` (lines 134-136).  The bodies of Add/Remove/Grow are
not among the sources; they are modelled from the spec (§4.1): probe
bucket b, then b−1, then b+1; install into an empty slot, setting
DISPLACED iff it is not b; otherwise promote the slot at b to a chain,
prepending a link node; deletion finds the entry via the same
three-bucket probe (and the chain at the home bucket) and collapses a
chain back to an inline slot when one element remains; growth doubles
`capacity_log` and reinserts everything.  The displaced-swap branch is
modelled as disabled (the spec leaves that heuristic open).  Strings
are identified by `Nat` keys hashed by an abstract function; a slot is
one 8-byte machine word; the `pmr` vector capacity equals the table
size (it is resized exactly to powers of two). -/

/-- One slot of the bucket array: a tagged `SuperPtr`.  A `link` slot
holds the full chain hanging off the bucket: `chain.length - 1` heap
`LinkKey` nodes. -/
inductive Slot where
  | empty : Slot
  | sds (v : Nat) (displaced : Bool) : Slot
  | link (chain : List Nat) (displaced : Bool) : Slot
  deriving DecidableEq, Repr

structure StringSetM where
  entries : List Slot
  capacityLog : Nat
  setSize : Nat          -- size_
  numChainEntries : Nat  -- num_chain_entries_
  deriving DecidableEq, Repr

/-- The number of heap `LinkKey` nodes a slot owns. -/
def slotLinks : Slot → Nat
  | .link ch _ => ch.length - 1
  | _ => 0

/-- The actual number of `LinkKey` nodes reachable from the bucket
array. -/
def structuralChainCount (s : StringSetM) : Nat :=
  (s.entries.map slotLinks).sum

/-- `StringSet::set_malloc_used`:
`(num_chain_entries_ + entries_.capacity()) * sizeof(SuperPtr)`. -/
def set_malloc_used (s : StringSetM) : Nat :=
  (s.numChainEntries + s.entries.length) * 8

/-- `StringSet::BucketId`: `hash >> (64 - capacity_log_)`. -/
def bucketOfM (L h : Nat) : Nat := h / 2 ^ (64 - L)

def slotAt (s : StringSetM) (i : Nat) : Slot := s.entries.getD i .empty

/-- Whether the slot holds the key, looking through a chain (valid at
the home bucket). -/
def slotHasHome (e : Nat) : Slot → Bool
  | .sds v _ => v == e
  | .link ch _ => decide (e ∈ ch)
  | .empty => false

/-- Whether the slot holds the key inline (the neighbor-probe
comparison; chains never store displaced entries). -/
def slotHasDirect (e : Nat) : Slot → Bool
  | .sds v _ => v == e
  | _ => false

/-- Modelled from the spec: probe b, b−1, b+1 for an empty slot
(`StringSet::FindEmptyAround`). -/
def probeEmptyM (s : StringSetM) (bid : Nat) : Option Nat :=
  if slotAt s bid = .empty then some bid
  else if 0 < bid ∧ slotAt s (bid - 1) = .empty then some (bid - 1)
  else if bid + 1 < s.entries.length ∧ slotAt s (bid + 1) = .empty then some (bid + 1)
  else none

/-- Modelled from the spec: find the key around its bucket
(`StringSet::FindAround`). -/
def findAroundM (hash : Nat → Nat) (s : StringSetM) (e : Nat) : Option Nat :=
  let bid := bucketOfM s.capacityLog (hash e)
  if slotHasHome e (slotAt s bid) then some bid
  else if 0 < bid ∧ slotHasDirect e (slotAt s (bid - 1)) = true then some (bid - 1)
  else if bid + 1 < s.entries.length ∧ slotHasDirect e (slotAt s (bid + 1)) = true then
    some (bid + 1)
  else none

/-- Modelled from the spec: `StringSet::Add` — no-op when present;
install into an empty slot around the bucket, displaced iff not at
home; otherwise promote the home slot to a chain, prepending the new
key as a link node (`NewLink`/`Link`, incrementing
`num_chain_entries_`). -/
def addM (hash : Nat → Nat) (s : StringSetM) (e : Nat) : StringSetM :=
  if (findAroundM hash s e).isSome then s
  else
    let bid := bucketOfM s.capacityLog (hash e)
    match probeEmptyM s bid with
    | some idx =>
        { s with entries := s.entries.set idx (.sds e (decide (idx ≠ bid))),
                 setSize := s.setSize + 1 }
    | none =>
        match slotAt s bid with
        | .sds old d =>
            { s with entries := s.entries.set bid (.link [e, old] d),
                     numChainEntries := s.numChainEntries + 1,
                     setSize := s.setSize + 1 }
        | .link ch d =>
            { s with entries := s.entries.set bid (.link (e :: ch) d),
                     numChainEntries := s.numChainEntries + 1,
                     setSize := s.setSize + 1 }
        | .empty => s

/-- Clear an inline slot (deleting a directly stored key). -/
def clearAt (s : StringSetM) (i : Nat) : StringSetM :=
  { s with entries := s.entries.set i .empty, setSize := s.setSize - 1 }

/-- Deletion of a displaced entry from a neighboring slot. -/
def removeNeighborM (s : StringSetM) (e : Nat) (bid : Nat) : StringSetM :=
  if 0 < bid ∧ slotHasDirect e (slotAt s (bid - 1)) = true then clearAt s (bid - 1)
  else if bid + 1 < s.entries.length ∧ slotHasDirect e (slotAt s (bid + 1)) = true then
    clearAt s (bid + 1)
  else s

/-- Modelled from the spec: `StringSet::Remove`/`Erase` — find via the
three-bucket probe (and the chain at the home bucket); removing a
chain entry frees one `LinkKey` (`Free`, decrementing
`num_chain_entries_`) and collapses the chain to an inline slot when
one element remains. -/
def removeM (hash : Nat → Nat) (s : StringSetM) (e : Nat) : StringSetM :=
  let bid := bucketOfM s.capacityLog (hash e)
  match slotAt s bid with
  | .sds v d =>
      if v = e then clearAt s bid else removeNeighborM s e bid
  | .link ch d =>
      if e ∈ ch then
        let ch2 := ch.erase e
        if ch2.length = 1 then
          { s with entries := s.entries.set bid (.sds (ch2.headD 0) d),
                   numChainEntries := s.numChainEntries - 1,
                   setSize := s.setSize - 1 }
        else
          { s with entries := s.entries.set bid (.link ch2 d),
                   numChainEntries := s.numChainEntries - 1,
                   setSize := s.setSize - 1 }
      else removeNeighborM s e bid
  | .empty => removeNeighborM s e bid

/-- A fresh table of `2^L` empty buckets. -/
def emptyM (L : Nat) : StringSetM :=
  { entries := List.replicate (2 ^ L) .empty, capacityLog := L,
    setSize := 0, numChainEntries := 0 }

def elemsOfSlot : Slot → List Nat
  | .empty => []
  | .sds v _ => [v]
  | .link ch _ => ch

/-- All keys stored in the table. -/
def elemsOfM (s : StringSetM) : List Nat := s.entries.flatMap elemsOfSlot

/-- Modelled from the spec: `StringSet::Grow` — double `capacity_log`
and reinsert every stored key. -/
def growM (hash : Nat → Nat) (s : StringSetM) : StringSetM :=
  (elemsOfM s).foldl (addM hash) (emptyM (s.capacityLog + 1))

/-- The states a `StringSet` can reach through its public operations. -/
inductive ReachableM (hash : Nat → Nat) : StringSetM → Prop where
  | empty (L : Nat) : ReachableM hash (emptyM L)
  | add (s : StringSetM) (e : Nat) : ReachableM hash s → ReachableM hash (addM hash s e)
  | remove (s : StringSetM) (e : Nat) : ReachableM hash s → ReachableM hash (removeM hash s e)
  | grow (s : StringSetM) : ReachableM hash s → ReachableM hash (growM hash s)

/-- Every chain slot owns at least one link node, and the tracked
`num_chain_entries_` counter equals the structural link-node count. -/
def AccountingInv (s : StringSetM) : Prop :=
  (∀ ch d, Slot.link ch d ∈ s.entries → 2 ≤ ch.length) ∧
  s.numChainEntries = structuralChainCount s

theorem sum_map_set (l : List Slot) (i : Nat) (x : Slot) (h : i < l.length) :
    ((l.set i x).map slotLinks).sum + slotLinks (l.getD i .empty) =
      (l.map slotLinks).sum + slotLinks x := by
  induction l generalizing i with
  | nil => simp at h
  | cons a t ih =>
      match i with
      | 0 => simp [List.set_cons_zero, List.getD_cons_zero]; omega
      | i + 1 =>
          have ht : i < t.length := by simpa using h
          simp only [List.set_cons_succ, List.map_cons, List.sum_cons,
            List.getD_cons_succ]
          have := ih i ht
          omega

theorem slotAt_mem_of_ne_empty (s : StringSetM) (i : Nat)
    (h : slotAt s i ≠ .empty) : i < s.entries.length ∧ slotAt s i ∈ s.entries := by
  unfold slotAt at *
  by_cases hlt : i < s.entries.length
  · refine ⟨hlt, ?_⟩
    rw [List.getD_eq_getElem?_getD, List.getElem?_eq_getElem hlt]
    exact List.getElem_mem hlt
  · exfalso
    apply h
    rw [List.getD_eq_getElem?_getD, List.getElem?_eq_none (by omega)]
    rfl

/-- Structural link count after overwriting slot `i`. -/
theorem structural_set (s : StringSetM) (i : Nat) (x : Slot)
    (hi : i < s.entries.length) :
    ((s.entries.set i x).map slotLinks).sum + slotLinks (slotAt s i) =
      structuralChainCount s + slotLinks x := by
  unfold structuralChainCount slotAt
  exact sum_map_set s.entries i x hi

theorem addM_inv (hash : Nat → Nat) (s : StringSetM) (e : Nat)
    (h : AccountingInv s) : AccountingInv (addM hash s e) := by
  obtain ⟨hwf, hcnt⟩ := h
  unfold addM
  by_cases hfound : (findAroundM hash s e).isSome
  · rw [if_pos hfound]
    exact ⟨hwf, hcnt⟩
  · rw [if_neg hfound]
    simp only
    rcases hprobe : probeEmptyM s (bucketOfM s.capacityLog (hash e)) with _ | idx
    · -- no empty slot around: promote the home slot to a chain
      rcases hslot : slotAt s (bucketOfM s.capacityLog (hash e)) with _ | ⟨old, d⟩ | ⟨ch, d⟩
      · exact ⟨hwf, hcnt⟩
      · -- sds → link [e, old]
        have hmem := slotAt_mem_of_ne_empty s (bucketOfM s.capacityLog (hash e))
          (by rw [hslot]; simp)
        constructor
        · intro ch2 d2 hch2
          rcases List.mem_or_eq_of_mem_set hch2 with hch2 | hch2
          · exact hwf ch2 d2 hch2
          · cases hch2
            simp
        · show s.numChainEntries + 1 = ((s.entries.set _ _).map slotLinks).sum
          have := structural_set s (bucketOfM s.capacityLog (hash e))
            (.link [e, old] d) hmem.1
          rw [hslot] at this
          simp only [slotLinks, List.length_cons, List.length_nil] at this
          omega
      · -- link ch → link (e :: ch)
        have hmem := slotAt_mem_of_ne_empty s (bucketOfM s.capacityLog (hash e))
          (by rw [hslot]; simp)
        have hch_len : 2 ≤ ch.length := hwf ch d (hslot ▸ hmem.2)
        constructor
        · intro ch2 d2 hch2
          rcases List.mem_or_eq_of_mem_set hch2 with hch2 | hch2
          · exact hwf ch2 d2 hch2
          · cases hch2
            simp
            omega
        · show s.numChainEntries + 1 = ((s.entries.set _ _).map slotLinks).sum
          have := structural_set s (bucketOfM s.capacityLog (hash e))
            (.link (e :: ch) d) hmem.1
          rw [hslot] at this
          simp only [slotLinks, List.length_cons] at this
          omega
    · -- install into the empty slot idx
      have hempty : slotAt s idx = .empty := by
        unfold probeEmptyM at hprobe
        split at hprobe
        · cases hprobe
          assumption
        · split at hprobe
          · rename_i hc
            cases hprobe
            exact hc.2
          · split at hprobe
            · rename_i hc
              cases hprobe
              exact hc.2
            · cases hprobe
      constructor
      · intro ch2 d2 hch2
        rcases List.mem_or_eq_of_mem_set hch2 with hch2 | hch2
        · exact hwf ch2 d2 hch2
        · cases hch2
      · show s.numChainEntries = ((s.entries.set _ _).map slotLinks).sum
        by_cases hi : idx < s.entries.length
        · have := structural_set s idx (.sds e (decide (idx ≠ bucketOfM s.capacityLog (hash e)))) hi
          rw [hempty] at this
          simp only [slotLinks] at this
          omega
        · rw [List.set_eq_of_length_le (by omega)]
          exact hcnt

theorem clearAt_inv (s : StringSetM) (i : Nat)
    (hdirect : ∃ v d, slotAt s i = .sds v d)
    (h : AccountingInv s) : AccountingInv (clearAt s i) := by
  obtain ⟨hwf, hcnt⟩ := h
  obtain ⟨v, d, hvd⟩ := hdirect
  have hmem := slotAt_mem_of_ne_empty s i (by rw [hvd]; simp)
  constructor
  · intro ch2 d2 hch2
    rcases List.mem_or_eq_of_mem_set hch2 with hch2 | hch2
    · exact hwf ch2 d2 hch2
    · cases hch2
  · show s.numChainEntries = ((s.entries.set _ _).map slotLinks).sum
    have := structural_set s i .empty hmem.1
    rw [hvd] at this
    simp only [slotLinks] at this
    omega

theorem removeNeighborM_inv (s : StringSetM) (e bid : Nat)
    (h : AccountingInv s) : AccountingInv (removeNeighborM s e bid) := by
  unfold removeNeighborM
  split <;> rename_i hc
  · refine clearAt_inv s (bid - 1) ?_ h
    rcases hs : slotAt s (bid - 1) with _ | ⟨v, d⟩ | _ <;>
      rw [hs] at hc <;> simp [slotHasDirect] at hc
    exact ⟨v, d, rfl⟩
  · split <;> rename_i hc2
    · refine clearAt_inv s (bid + 1) ?_ h
      rcases hs : slotAt s (bid + 1) with _ | ⟨v, d⟩ | _ <;>
        rw [hs] at hc2 <;> simp [slotHasDirect] at hc2
      exact ⟨v, d, rfl⟩
    · exact h

theorem removeM_inv (hash : Nat → Nat) (s : StringSetM) (e : Nat)
    (h : AccountingInv s) : AccountingInv (removeM hash s e) := by
  obtain ⟨hwf, hcnt⟩ := h
  unfold removeM
  simp only
  rcases hslot : slotAt s (bucketOfM s.capacityLog (hash e)) with _ | ⟨v, d⟩ | ⟨ch, d⟩ <;>
    dsimp only
  · exact removeNeighborM_inv s e _ ⟨hwf, hcnt⟩
  · by_cases hv : v = e
    · rw [if_pos hv]
      exact clearAt_inv s _ ⟨v, d, hslot⟩ ⟨hwf, hcnt⟩
    · rw [if_neg hv]
      exact removeNeighborM_inv s e _ ⟨hwf, hcnt⟩
  · by_cases hin : e ∈ ch
    · rw [if_pos hin]
      have hmem := slotAt_mem_of_ne_empty s (bucketOfM s.capacityLog (hash e))
        (by rw [hslot]; simp)
      have hch_len : 2 ≤ ch.length := hwf ch d (hslot ▸ hmem.2)
      have herase : (ch.erase e).length = ch.length - 1 := by
        rw [List.length_erase]
        simp [hin]
      have hstruct_ge : 1 ≤ structuralChainCount s := by
        have h1 : slotLinks (.link ch d) ≤ structuralChainCount s := by
          unfold structuralChainCount
          exact List.single_le_sum (by intro x hx; omega) _
            (List.mem_map_of_mem slotLinks (hslot ▸ hmem.2))
        simp only [slotLinks] at h1
        omega
      by_cases hlen1 : (ch.erase e).length = 1
      · rw [if_pos hlen1]
        constructor
        · intro ch2 d2 hch2
          rcases List.mem_or_eq_of_mem_set hch2 with hch2 | hch2
          · exact hwf ch2 d2 hch2
          · cases hch2
        · show s.numChainEntries - 1 = ((s.entries.set _ _).map slotLinks).sum
          have := structural_set s (bucketOfM s.capacityLog (hash e))
            (.sds ((ch.erase e).headD 0) d) hmem.1
          rw [hslot] at this
          simp only [slotLinks] at this
          omega
      · rw [if_neg hlen1]
        constructor
        · intro ch2 d2 hch2
          rcases List.mem_or_eq_of_mem_set hch2 with hch2 | hch2
          · exact hwf ch2 d2 hch2
          · cases hch2
            omega
        · show s.numChainEntries - 1 = ((s.entries.set _ _).map slotLinks).sum
          have := structural_set s (bucketOfM s.capacityLog (hash e))
            (.link (ch.erase e) d) hmem.1
          rw [hslot] at this
          simp only [slotLinks] at this
          omega
    · rw [if_neg hin]
      exact removeNeighborM_inv s e _ ⟨hwf, hcnt⟩

theorem emptyM_inv (L : Nat) : AccountingInv (emptyM L) := by
  constructor
  · intro ch d hch
    exfalso
    have := List.eq_of_mem_replicate hch
    cases this
  · show 0 = ((List.replicate (2 ^ L) Slot.empty).map slotLinks).sum
    rw [List.map_replicate]
    simp [slotLinks]

theorem foldl_addM_inv (hash : Nat → Nat) (l : List Nat) (t : StringSetM)
    (h : AccountingInv t) : AccountingInv (l.foldl (addM hash) t) := by
  induction l generalizing t with
  | nil => exact h
  | cons a rest ih => exact ih _ (addM_inv hash t a h)

theorem growM_inv (hash : Nat → Nat) (s : StringSetM) :
    AccountingInv (growM hash s) :=
  foldl_addM_inv hash (elemsOfM s) _ (emptyM_inv (s.capacityLog + 1))

theorem reachable_inv (hash : Nat → Nat) (s : StringSetM)
    (h : ReachableM hash s) : AccountingInv s := by
  induction h with
  | empty L => exact emptyM_inv L
  | add s e _ ih => exact addM_inv hash s e ih
  | remove s e _ ih => exact removeM_inv hash s e ih
  | grow s _ _ => exact growM_inv hash s

/-- C7.  For every reachable `StringSet` state, `set_malloc_used()`
equals (number of chained entries + table capacity) × the 8-byte word
size — the tracked `num_chain_entries_` counter always equals the true
number of heap link nodes hanging off the bucket array. -/
theorem c7_set_malloc_used (hash : Nat → Nat) (s : StringSetM)
    (hr : ReachableM hash s) :
    set_malloc_used s = (structuralChainCount s + s.entries.length) * 8 := by
  unfold set_malloc_used
  rw [(reachable_inv hash s hr).2]

/-- Witness for C7: a small table reached by two inserts and a grow. -/
theorem c7_witness :
    set_malloc_used (growM id (addM id (addM id (emptyM 0) 3) 7)) =
      (structuralChainCount (growM id (addM id (addM id (emptyM 0) 3) 7)) +
        (growM id (addM id (addM id (emptyM 0) 3) 7)).entries.length) * 8 :=
  c7_set_malloc_used id _
    (ReachableM.grow _ (ReachableM.add _ 7 (ReachableM.add _ 3 (ReachableM.empty 0))))

end Dfly
